import Mathlib

/-!
# Verification of the table-driven AES-128 CBC decryption engine (`src/assets/7/AES.py`)

The repository's single source file is a Python class `AES`.  Buffers are
represented there as hexadecimal strings; we embed a hex string as a
`List Nat` whose entries are the hex-digit values (most significant digit
first).  A byte is two consecutive digits.  Python's `int(s, 16)` raises
`ValueError` on an empty string, so the embedded parser returns `Option`;
every operation built on it is `Option`-valued exactly where the Python can
raise.  Python slice semantics (including negative indices, as exercised by
`padInv`) are modelled by `pySlice`.

The methods `shiftRowsInv`, `mixColumnsInv` and `decrypt` are only declared
in the source (their bodies return unassigned names), and the lookup-table
file `tables.txt` is not part of the repository; those parts are modelled
from the specification and carry a `Modelled from the spec:` doc comment.
`decryptBlock` is present and runnable in the source — its body is the
single statement `return block`, the identity on its argument — and is
embedded as such; the §4.5 inverse-cipher state machine it is compared
against is the separate definition `decryptBlockSpec`.  Everything else is
translated directly from the Python.
-/

set_option maxRecDepth 100000
set_option maxHeartbeats 4000000

namespace AES

/-! ## Hex-string utilities -/

/-- A list of hex-digit values: every entry is below 16. -/
def ValidHex (l : List Nat) : Prop := ∀ d ∈ l, d < 16

instance (l : List Nat) : Decidable (ValidHex l) := List.decidableBAll _ l

/-- Value of a hex-digit string, most significant digit first; the fold
mirrors Python's left-to-right `int(s, 16)`. -/
def hexToNat (l : List Nat) : Nat := l.foldl (fun a d => 16 * a + d) 0

/-- `int(s, 16)`: fails (raises `ValueError`) on the empty string. -/
def intHex (l : List Nat) : Option Nat := if l = [] then none else some (hexToNat l)

/-- Little-endian base-16 digit extraction with fuel (structural so the
kernel can evaluate it). -/
def formatHexAux : Nat → Nat → List Nat
  | 0, _ => []
  | fuel + 1, v => if v = 0 then [] else v % 16 :: formatHexAux fuel (v / 16)

/-- `format(v, "x")`: minimal-length hex digits of `v`, and `"0"` for zero. -/
def formatHex (v : Nat) : List Nat := if v = 0 then [0] else (formatHexAux (v + 1) v).reverse

/-- `str.zfill(n)`: left-pad with zero digits to length `n`, never truncating. -/
def zfill (n : Nat) (l : List Nat) : List Nat := List.replicate (n - l.length) 0 ++ l

/-- `s[a:b]` for non-negative bounds. -/
def sliceN (s : List Nat) (a b : Nat) : List Nat := (s.drop a).take (b - a)

/-- Normalise a Python slice index: negative indices count from the end and
clamp at 0, positive ones clamp at the length. -/
def pyIx (len : Nat) (j : Int) : Nat := if j < 0 then ((len : Int) + j).toNat else min len j.toNat

/-- `s[a:b]` with full Python slice-index semantics. -/
def pySlice (s : List Nat) (a b : Int) : List Nat :=
  (s.take (pyIx s.length b)).drop (pyIx s.length a)

/-- The byte sequence represented by a hex-digit string (pairs of digits). -/
def bytesOfHex : List Nat → List Nat
  | h :: l :: t => (16 * h + l) :: bytesOfHex t
  | _ => []

/-- The two hex digits of a byte. -/
def hexPair (b : Nat) : List Nat := [b / 16, b % 16]

/-- Hex-digit string of a byte sequence. -/
def hexOfBytes (l : List Nat) : List Nat := (l.map hexPair).flatten

/-! ## GF(2^8) arithmetic and the lookup tables

`Modelled from the spec:` the source loads its lookup tables from
`tables.txt`, which is not in the repository.  Per §4.1/§6 of the spec the
tables are fixed constants: SBox, InverseSBox and multiplication by
0x09/0x0B/0x0D/0x0E in GF(2^8) under the AES polynomial x^8+x^4+x^3+x+1,
"computed from fixed AES constants".  We compute them from that arithmetic. -/

/-- Multiplication by x in GF(2^8) modulo x^8+x^4+x^3+x+1. -/
def xtime (a : Nat) : Nat := if a < 128 then 2 * a else ((2 * a) % 256) ^^^ 0x1B

/-- Peasant multiplication, 8 bit-steps. -/
def gmulAux : Nat → Nat → Nat → Nat
  | _, _, 0 => 0
  | a, b, k + 1 => (if b % 2 = 1 then a else 0) ^^^ gmulAux (xtime a) (b / 2) k

/-- GF(2^8) product of two bytes. -/
def gmul (a b : Nat) : Nat := gmulAux a b 8

/-- The AES S-box as a compiled-in 256-entry constant (the standard table of
FIPS-197; `sbox_inverse_law` below and the known-answer vector of C1 pin it). -/
def sboxT : List Nat :=
  [0x63,0x7c,0x77,0x7b,0xf2,0x6b,0x6f,0xc5,0x30,0x1,0x67,0x2b,0xfe,0xd7,0xab,0x76,
   0xca,0x82,0xc9,0x7d,0xfa,0x59,0x47,0xf0,0xad,0xd4,0xa2,0xaf,0x9c,0xa4,0x72,0xc0,
   0xb7,0xfd,0x93,0x26,0x36,0x3f,0xf7,0xcc,0x34,0xa5,0xe5,0xf1,0x71,0xd8,0x31,0x15,
   0x4,0xc7,0x23,0xc3,0x18,0x96,0x5,0x9a,0x7,0x12,0x80,0xe2,0xeb,0x27,0xb2,0x75,
   0x9,0x83,0x2c,0x1a,0x1b,0x6e,0x5a,0xa0,0x52,0x3b,0xd6,0xb3,0x29,0xe3,0x2f,0x84,
   0x53,0xd1,0x0,0xed,0x20,0xfc,0xb1,0x5b,0x6a,0xcb,0xbe,0x39,0x4a,0x4c,0x58,0xcf,
   0xd0,0xef,0xaa,0xfb,0x43,0x4d,0x33,0x85,0x45,0xf9,0x2,0x7f,0x50,0x3c,0x9f,0xa8,
   0x51,0xa3,0x40,0x8f,0x92,0x9d,0x38,0xf5,0xbc,0xb6,0xda,0x21,0x10,0xff,0xf3,0xd2,
   0xcd,0xc,0x13,0xec,0x5f,0x97,0x44,0x17,0xc4,0xa7,0x7e,0x3d,0x64,0x5d,0x19,0x73,
   0x60,0x81,0x4f,0xdc,0x22,0x2a,0x90,0x88,0x46,0xee,0xb8,0x14,0xde,0x5e,0xb,0xdb,
   0xe0,0x32,0x3a,0xa,0x49,0x6,0x24,0x5c,0xc2,0xd3,0xac,0x62,0x91,0x95,0xe4,0x79,
   0xe7,0xc8,0x37,0x6d,0x8d,0xd5,0x4e,0xa9,0x6c,0x56,0xf4,0xea,0x65,0x7a,0xae,0x8,
   0xba,0x78,0x25,0x2e,0x1c,0xa6,0xb4,0xc6,0xe8,0xdd,0x74,0x1f,0x4b,0xbd,0x8b,0x8a,
   0x70,0x3e,0xb5,0x66,0x48,0x3,0xf6,0xe,0x61,0x35,0x57,0xb9,0x86,0xc1,0x1d,0x9e,
   0xe1,0xf8,0x98,0x11,0x69,0xd9,0x8e,0x94,0x9b,0x1e,0x87,0xe9,0xce,0x55,0x28,0xdf,
   0x8c,0xa1,0x89,0xd,0xbf,0xe6,0x42,0x68,0x41,0x99,0x2d,0xf,0xb0,0x54,0xbb,0x16]

/-- The AES inverse S-box as a compiled-in 256-entry constant. -/
def sboxInvT : List Nat :=
  [0x52,0x9,0x6a,0xd5,0x30,0x36,0xa5,0x38,0xbf,0x40,0xa3,0x9e,0x81,0xf3,0xd7,0xfb,
   0x7c,0xe3,0x39,0x82,0x9b,0x2f,0xff,0x87,0x34,0x8e,0x43,0x44,0xc4,0xde,0xe9,0xcb,
   0x54,0x7b,0x94,0x32,0xa6,0xc2,0x23,0x3d,0xee,0x4c,0x95,0xb,0x42,0xfa,0xc3,0x4e,
   0x8,0x2e,0xa1,0x66,0x28,0xd9,0x24,0xb2,0x76,0x5b,0xa2,0x49,0x6d,0x8b,0xd1,0x25,
   0x72,0xf8,0xf6,0x64,0x86,0x68,0x98,0x16,0xd4,0xa4,0x5c,0xcc,0x5d,0x65,0xb6,0x92,
   0x6c,0x70,0x48,0x50,0xfd,0xed,0xb9,0xda,0x5e,0x15,0x46,0x57,0xa7,0x8d,0x9d,0x84,
   0x90,0xd8,0xab,0x0,0x8c,0xbc,0xd3,0xa,0xf7,0xe4,0x58,0x5,0xb8,0xb3,0x45,0x6,
   0xd0,0x2c,0x1e,0x8f,0xca,0x3f,0xf,0x2,0xc1,0xaf,0xbd,0x3,0x1,0x13,0x8a,0x6b,
   0x3a,0x91,0x11,0x41,0x4f,0x67,0xdc,0xea,0x97,0xf2,0xcf,0xce,0xf0,0xb4,0xe6,0x73,
   0x96,0xac,0x74,0x22,0xe7,0xad,0x35,0x85,0xe2,0xf9,0x37,0xe8,0x1c,0x75,0xdf,0x6e,
   0x47,0xf1,0x1a,0x71,0x1d,0x29,0xc5,0x89,0x6f,0xb7,0x62,0xe,0xaa,0x18,0xbe,0x1b,
   0xfc,0x56,0x3e,0x4b,0xc6,0xd2,0x79,0x20,0x9a,0xdb,0xc0,0xfe,0x78,0xcd,0x5a,0xf4,
   0x1f,0xdd,0xa8,0x33,0x88,0x7,0xc7,0x31,0xb1,0x12,0x10,0x59,0x27,0x80,0xec,0x5f,
   0x60,0x51,0x7f,0xa9,0x19,0xb5,0x4a,0xd,0x2d,0xe5,0x7a,0x9f,0x93,0xc9,0x9c,0xef,
   0xa0,0xe0,0x3b,0x4d,0xae,0x2a,0xf5,0xb0,0xc8,0xeb,0xbb,0x3c,0x83,0x53,0x99,0x61,
   0x17,0x2b,0x4,0x7e,0xba,0x77,0xd6,0x26,0xe1,0x69,0x14,0x63,0x55,0x21,0xc,0x7d]

/-- S-box lookup of one byte. -/
def sboxByte (x : Nat) : Nat := sboxT.getD x 0

/-- Inverse S-box lookup of one byte. -/
def sboxInvByte (x : Nat) : Nat := sboxInvT.getD x 0

/-- `self.mult09`: the multiply-by-0x09 table, as a 256-entry list. -/
def mult09 : List Nat := (List.range 256).map (gmul 0x09)

/-- `self.mult0B`: the multiply-by-0x0B table. -/
def mult0B : List Nat := (List.range 256).map (gmul 0x0B)

/-- `self.mult0D`: the multiply-by-0x0D table. -/
def mult0D : List Nat := (List.range 256).map (gmul 0x0D)

/-- `self.mult0E`: the multiply-by-0x0E table. -/
def mult0E : List Nat := (List.range 256).map (gmul 0x0E)

/-- Table lookup `t[b]`. -/
def tbl (t : List Nat) (b : Nat) : Nat := t.getD b 0

/-! ## Embedding of the implemented methods of `AES.py` -/

/-- `AES.rot(string, n, w)`: `n = n % w; return string[n:] + string[:n]`. -/
def rot (s : List Nat) (n w : Nat) : List Nat :=
  let m := n % w
  s.drop m ++ s.take m

/-- `AES.xor(text1, text2, length)`:
`format(int(text1,16) ^ int(text2,16), "x").zfill(length)`.
Note the source performs no length comparison of its own. -/
def xor (t1 t2 : List Nat) (length : Nat) : Option (List Nat) := do
  let a ← intHex t1
  let b ← intHex t2
  return zfill length (formatHex (a ^^^ b))

/-- Common shape of `AES.subByte` / `AES.subByteInv`: for `i in
range(length)`, append `table[int(bytes[i*2:i*2+2], 16)]`.  Table entries
are two-hex-char strings. -/
def subWith (table : Nat → List Nat) (s : List Nat) (length : Nat) : Option (List Nat) :=
  (List.range length).foldlM (fun res i => do
    let v ← intHex (sliceN s (2 * i) (2 * i + 2))
    return res ++ table v) []

/-- `AES.subByte(bytes, length)` with the S-box table. -/
def subByte (s : List Nat) (length : Nat) : Option (List Nat) :=
  subWith (fun v => hexPair (sboxByte v)) s length

/-- `AES.subByteInv(bytes, length)` with the inverse S-box table. -/
def subByteInv (s : List Nat) (length : Nat) : Option (List Nat) :=
  subWith (fun v => hexPair (sboxInvByte v)) s length

/-- `self.Rcon`: the round-constant strings
`["0", "01000000", ..., "1B000000", "36000000"]` as digit lists. -/
def Rcon : List (List Nat) :=
  [[0], [0,1,0,0,0,0,0,0], [0,2,0,0,0,0,0,0], [0,4,0,0,0,0,0,0], [0,8,0,0,0,0,0,0],
   [1,0,0,0,0,0,0,0], [2,0,0,0,0,0,0,0], [4,0,0,0,0,0,0,0], [8,0,0,0,0,0,0,0],
   [1,11,0,0,0,0,0,0], [3,6,0,0,0,0,0,0]]

/-- One iteration of the loop in `AES.expandKey`: split the previous round
key into the four 8-hex-char words `w0..w3` and chain the xors.  `rot w3 2 8`
rotates by two hex characters, i.e. one byte, left. -/
def expandStep (prev : List Nat) (rc : List Nat) : Option (List Nat) := do
  let w0 := sliceN prev 0 8
  let w1 := sliceN prev 8 16
  let w2 := sliceN prev 16 24
  let w3 := sliceN prev 24 32
  let s ← subByte (rot w3 2 8) 4
  let t ← xor s rc 8
  let rw0 ← xor w0 t 8
  let rw1 ← xor w1 rw0 8
  let rw2 ← xor w2 rw1 8
  let rw3 ← xor w3 rw2 8
  return rw0 ++ rw1 ++ rw2 ++ rw3

/-- The loop `for i in range(1, 11)` of `AES.expandKey`, producing the round
keys for indices `i, i+1, ...` while `fuel` lasts. -/
def expandAux (prev : List Nat) (i : Nat) : Nat → Option (List (List Nat))
  | 0 => some []
  | fuel + 1 => do
    let nk ← expandStep prev (Rcon.getD i [])
    let rest ← expandAux nk (i + 1) fuel
    return nk :: rest

/-- `AES.expandKey(key)`: `Rkey[0] = key` and ten expansion rounds. -/
def expandKey (key : List Nat) : Option (List (List Nat)) := do
  let rest ← expandAux key 1 10
  return key :: rest

/-- The loop `for i in range(pad)` of `AES.padInv`, entered with `fuel = pad`
remaining iterations (loop index `i = pad - fuel`); when the loop finishes,
`plain[0 : l - pad*2]` is returned.  The slice for loop index `i` is
`plain[l-2-i*2 : l-i*2]`; when it is empty, `int` raises (`none`). -/
def padInvLoop (plain : List Nat) (pad : Nat) : Nat → Option (List Nat)
  | 0 => some (pySlice plain 0 ((plain.length : Int) - 2 * pad))
  | k + 1 => do
    let i : Nat := pad - (k + 1)
    let cur ← intHex (pySlice plain ((plain.length : Int) - 2 - 2 * i) ((plain.length : Int) - 2 * i))
    if cur = pad then padInvLoop plain pad k else return plain

/-- `AES.padInv(plain)`: read the last byte as the candidate pad length and
strip it if all checked bytes match. -/
def padInv (plain : List Nat) : Option (List Nat) := do
  let pad ← intHex (pySlice plain ((plain.length : Int) - 2) (plain.length : Int))
  padInvLoop plain pad pad

/-- The observable state built by `AES.__init__`: the IV and the expanded
round keys.  The lookup tables are the compiled-in constants above.  Note
the constructor performs no key-length validation of its own. -/
structure AESState where
  IV : List Nat
  Rkey : List (List Nat)

/-- `AES.__init__(key, IV)`: store the IV and expand the key; fails only if
`expandKey` raises. -/
def initAES (key IV : List Nat) : Option AESState :=
  (expandKey key).map (fun ks => { IV := IV, Rkey := ks })

/-! ## The missing methods, modelled from the spec -/

/-- `Modelled from the spec:` the body of `AES.shiftRowsInv` is absent from
the source (it returns the unassigned name `shifted`).  Per §4.4, row `r` of
the column-major 4×4 state is rotated right by `r` positions, so output byte
`4c+r` is input byte `4((c-r) mod 4)+r`; on the hex string the result is the
input's byte slices concatenated in the order
0,13,10,7, 4,1,14,11, 8,5,2,15, 12,9,6,3 (each byte is two characters). -/
def shiftRowsInv (s : List Nat) : List Nat :=
  [s.getD 0 0, s.getD 1 0, s.getD 26 0, s.getD 27 0, s.getD 20 0, s.getD 21 0, s.getD 14 0, s.getD 15 0,
   s.getD 8 0, s.getD 9 0, s.getD 2 0, s.getD 3 0, s.getD 28 0, s.getD 29 0, s.getD 22 0, s.getD 23 0,
   s.getD 16 0, s.getD 17 0, s.getD 10 0, s.getD 11 0, s.getD 4 0, s.getD 5 0, s.getD 30 0, s.getD 31 0,
   s.getD 24 0, s.getD 25 0, s.getD 18 0, s.getD 19 0, s.getD 12 0, s.getD 13 0, s.getD 6 0, s.getD 7 0]

/-- `Modelled from the spec:` the body of `AES.mixColumnsInv` is absent from
the source (it returns the unassigned name `mixed`).  Per §4.4, each 4-byte
column `(a0,a1,a2,a3)` becomes `(0E·a0 ⊕ 0B·a1 ⊕ 0D·a2 ⊕ 09·a3, ...)` using
the precomputed multiplication tables. -/
def mixColumnsInv (s : List Nat) : List Nat :=
  ((List.range 4).map (fun c =>
    let a0 := 16 * s.getD (8*c) 0 + s.getD (8*c+1) 0
    let a1 := 16 * s.getD (8*c+2) 0 + s.getD (8*c+3) 0
    let a2 := 16 * s.getD (8*c+4) 0 + s.getD (8*c+5) 0
    let a3 := 16 * s.getD (8*c+6) 0 + s.getD (8*c+7) 0
    hexPair (tbl mult0E a0 ^^^ tbl mult0B a1 ^^^ tbl mult0D a2 ^^^ tbl mult09 a3) ++
    hexPair (tbl mult09 a0 ^^^ tbl mult0E a1 ^^^ tbl mult0B a2 ^^^ tbl mult0D a3) ++
    hexPair (tbl mult0D a0 ^^^ tbl mult09 a1 ^^^ tbl mult0E a2 ^^^ tbl mult0B a3) ++
    hexPair (tbl mult0B a0 ^^^ tbl mult0D a1 ^^^ tbl mult09 a2 ^^^ tbl mult0E a3))).flatten

/-- The middle rounds `r = 9 down to 1` of block decryption: InverseShiftRows,
InverseSubBytes, AddRoundKey(`Rkey[r]`), InverseMixColumns. -/
def decRounds (Rkey : List (List Nat)) (b : List Nat) : Nat → Option (List Nat)
  | 0 => some b
  | r + 1 => do
    let s ← subByteInv (shiftRowsInv b) 16
    let s2 ← xor s (Rkey.getD (r + 1) []) 32
    decRounds Rkey (mixColumnsInv s2) r

/-- `AES.decryptBlock` as implemented in the source: its entire body is the
single statement `return block`, so it is the identity on the block — the
round keys prepared by `__init__` (here the `AESState`) are never read. -/
def decryptBlock (_a : AESState) (block : List Nat) : List Nat := block

/-- The spec's BlockCipherCore, written from §4.5's words (the FIPS-197
inverse cipher) for comparison with the source's `decryptBlock`: initial
AddRoundKey(`Rkey[10]`); rounds 9..1; final round without InverseMixColumns,
with AddRoundKey(`Rkey[0]`). -/
def decryptBlockSpec (Rkey : List (List Nat)) (block : List Nat) : Option (List Nat) := do
  let b ← xor block (Rkey.getD 10 []) 32
  let b2 ← decRounds Rkey b 9
  let s ← subByteInv (shiftRowsInv b2) 16
  xor s (Rkey.getD 0 []) 32

/-- Typed failures of `decrypt`, per §7 of the spec.  `valueError` stands
for a Python `ValueError` escaping from `padInv`; `internalError` for a
`ValueError` escaping from the block machinery. -/
inductive DecryptError where
  | invalidBlockLength : DecryptError
  | valueError : DecryptError
  | internalError : DecryptError
deriving DecidableEq

/-- Split a buffer into 16-byte (32-hex-digit) blocks. -/
def chunksAux : Nat → List Nat → List (List Nat)
  | 0, _ => []
  | fuel + 1, l => if l.isEmpty then [] else l.take 32 :: chunksAux fuel (l.drop 32)

/-- All 32-digit chunks of a buffer. -/
def chunks32 (l : List Nat) : List (List Nat) := chunksAux l.length l

/-- CBC chaining per §4.6: `P[i] = decryptBlock(C[i]) XOR prev` where `prev`
is the IV for the first block and `C[i-1]` afterwards, with the block
decryption being §4.5's state machine `decryptBlockSpec`. -/
def cbcLoop (Rkey : List (List Nat)) : List Nat → List (List Nat) → Option (List Nat)
  | _, [] => some []
  | prev, c :: rest => do
    let d ← decryptBlockSpec Rkey c
    let p ← xor d prev 32
    let ps ← cbcLoop Rkey c rest
    return p ++ ps

/-- `Modelled from the spec:` the body of `AES.decrypt` is absent from the
source (it returns the unassigned name `plain`).  Per §4.6: fail with
InvalidBlockLength unless the length is a positive multiple of 16 bytes,
CBC-chain the §4.5 block decryption over the blocks, then run the source's
`padInv` on the assembled plaintext. -/
def decrypt (a : AESState) (cipher : List Nat) : Except DecryptError (List Nat) :=
  if cipher.length = 0 ∨ cipher.length % 32 ≠ 0 then .error .invalidBlockLength
  else
    match cbcLoop a.Rkey a.IV (chunks32 cipher) with
    | none => .error .internalError
    | some raw =>
      match padInv raw with
      | none => .error .valueError
      | some p => .ok p

/-! ## The byte-level AES-128 standard inverse cipher

These definitions follow the specification's words (§4.2, §4.4, §4.5 —
the FIPS-197 inverse cipher) over 16-byte lists, with GF(2^8)
multiplication written out directly; the code-level pipeline above is
proved to refine them. -/

/-- AddRoundKey on byte lists. -/
def addRoundKeyB (st rk : List Nat) : List Nat := List.zipWith (· ^^^ ·) st rk

/-- InverseSubBytes on byte lists. -/
def subBytesInvB (st : List Nat) : List Nat := st.map sboxInvByte

/-- The byte permutation of InverseShiftRows: output byte `4c+r` is input
byte `4((c-r) mod 4)+r`. -/
def shiftIdx : List Nat := [0,13,10,7,4,1,14,11,8,5,2,15,12,9,6,3]

/-- InverseShiftRows on byte lists. -/
def shiftRowsInvB (st : List Nat) : List Nat := shiftIdx.map (fun i => st.getD i 0)

/-- InverseMixColumns on byte lists, by GF(2^8) arithmetic. -/
def mixColumnsInvB (st : List Nat) : List Nat :=
  ((List.range 4).map (fun c =>
    let a0 := st.getD (4*c) 0
    let a1 := st.getD (4*c+1) 0
    let a2 := st.getD (4*c+2) 0
    let a3 := st.getD (4*c+3) 0
    [gmul 14 a0 ^^^ gmul 11 a1 ^^^ gmul 13 a2 ^^^ gmul 9 a3,
     gmul 9 a0 ^^^ gmul 14 a1 ^^^ gmul 11 a2 ^^^ gmul 13 a3,
     gmul 13 a0 ^^^ gmul 9 a1 ^^^ gmul 14 a2 ^^^ gmul 11 a3,
     gmul 11 a0 ^^^ gmul 13 a1 ^^^ gmul 9 a2 ^^^ gmul 14 a3])).flatten

/-- The first ten values of the round-constant sequence of §4.2. -/
def rcSeq : List Nat := [0x01,0x02,0x04,0x08,0x10,0x20,0x40,0x80,0x1B,0x36]

/-- RoundConstant[i] as a 4-byte word: high byte `rcSeq[i-1]`, rest zero. -/
def rconB (i : Nat) : List Nat := [rcSeq.getD (i - 1) 0, 0, 0, 0]

/-- RotateWord: one byte left, wrapping. -/
def rotWordB (w : List Nat) : List Nat := w.drop 1 ++ w.take 1

/-- One round of the key schedule of §4.2 on 16-byte round keys. -/
def stdKeyStep (prev : List Nat) (i : Nat) : List Nat :=
  let w0 := prev.take 4
  let w1 := (prev.drop 4).take 4
  let w2 := (prev.drop 8).take 4
  let w3 := (prev.drop 12).take 4
  let t := List.zipWith (· ^^^ ·) ((rotWordB w3).map sboxByte) (rconB i)
  let n0 := List.zipWith (· ^^^ ·) w0 t
  let n1 := List.zipWith (· ^^^ ·) w1 n0
  let n2 := List.zipWith (· ^^^ ·) w2 n1
  let n3 := List.zipWith (· ^^^ ·) w3 n2
  n0 ++ n1 ++ n2 ++ n3

/-- Round key `i` of the standard AES-128 key schedule as a function of the
16-byte root key. -/
def stdRK (key : List Nat) : Nat → List Nat
  | 0 => key
  | i + 1 => stdKeyStep (stdRK key i) (i + 1)

/-- The middle rounds of the standard inverse cipher, mirroring `decRounds`. -/
def invRoundsB (rkf : Nat → List Nat) (st : List Nat) : Nat → List Nat
  | 0 => st
  | r + 1 =>
    invRoundsB rkf (mixColumnsInvB (addRoundKeyB (subBytesInvB (shiftRowsInvB st)) (rkf (r + 1)))) r

/-- The AES-128 standard inverse cipher (FIPS-197 InvCipher) on a 16-byte
block, given the round-key function. -/
def invCipherStd (rkf : Nat → List Nat) (ct : List Nat) : List Nat :=
  addRoundKeyB (subBytesInvB (shiftRowsInvB (invRoundsB rkf (addRoundKeyB ct (rkf 10)) 9))) (rkf 0)

/-! ## Known-answer data (FIPS-197 appendix C.1) -/

/-- The key `000102030405060708090a0b0c0d0e0f` as hex digits. -/
def katKey : List Nat := [0x0,0x0,0x0,0x1,0x0,0x2,0x0,0x3,0x0,0x4,0x0,0x5,0x0,0x6,0x0,0x7,0x0,0x8,0x0,0x9,0x0,0xa,0x0,0xb,0x0,0xc,0x0,0xd,0x0,0xe,0x0,0xf]

/-- The ciphertext block `69c4e0d86a7b0430d8cdb78070b4c55a` as hex digits. -/
def katCt : List Nat := [0x6,0x9,0xc,0x4,0xe,0x0,0xd,0x8,0x6,0xa,0x7,0xb,0x0,0x4,0x3,0x0,0xd,0x8,0xc,0xd,0xb,0x7,0x8,0x0,0x7,0x0,0xb,0x4,0xc,0x5,0x5,0xa]

/-- The plaintext block `00112233445566778899aabbccddeeff` as hex digits. -/
def katPt : List Nat := [0x0,0x0,0x1,0x1,0x2,0x2,0x3,0x3,0x4,0x4,0x5,0x5,0x6,0x6,0x7,0x7,0x8,0x8,0x9,0x9,0xa,0xa,0xb,0xb,0xc,0xc,0xd,0xd,0xe,0xe,0xf,0xf]

/-- Row `r` of a 16-byte State in the column-major layout of §3: the bytes at
indices r, 4+r, 8+r, 12+r. -/
def rowR (st : List Nat) (r : Nat) : List Nat :=
  [st.getD r 0, st.getD (4 + r) 0, st.getD (8 + r) 0, st.getD (12 + r) 0]

/-- Cyclic right rotation of a list by `n` positions. -/
def rotRight (l : List Nat) (n : Nat) : List Nat :=
  l.drop (l.length - n % l.length) ++ l.take (l.length - n % l.length)

/-- A well-formed hex block: 32 valid hex digits (16 bytes). -/
def GoodBlock (s : List Nat) : Prop := s.length = 32 ∧ ValidHex s

/-- A well-formed round-key sequence: 11 well-formed blocks. -/
def GoodKeys (ks : List (List Nat)) : Prop := ks.length = 11 ∧ ∀ k ∈ ks, GoodBlock k

end AES

namespace AES

/-! ## Arithmetic of hex-digit strings -/

theorem hexToNat_foldl_acc (l : List Nat) (acc : Nat) :
    l.foldl (fun a d => 16 * a + d) acc = acc * 16 ^ l.length + hexToNat l := by
  induction l generalizing acc with
  | nil => simp [hexToNat]
  | cons d t ih =>
    simp only [List.foldl_cons, hexToNat, List.length_cons]
    rw [ih (16 * acc + d), ih (16 * 0 + d)]
    ring

theorem hexToNat_cons (d : Nat) (t : List Nat) :
    hexToNat (d :: t) = d * 16 ^ t.length + hexToNat t := by
  have := hexToNat_foldl_acc t (16 * 0 + d)
  simpa [hexToNat] using this

theorem hexToNat_lt (l : List Nat) (h : ValidHex l) : hexToNat l < 16 ^ l.length := by
  induction l with
  | nil => simp [hexToNat]
  | cons d t ih =>
    have hd : d < 16 := h d (by simp)
    have ht : hexToNat t < 16 ^ t.length := ih (fun x hx => h x (by simp [hx]))
    rw [hexToNat_cons, List.length_cons]
    calc d * 16 ^ t.length + hexToNat t < d * 16 ^ t.length + 16 ^ t.length :=
          Nat.add_lt_add_left ht _
      _ = (d + 1) * 16 ^ t.length := by ring
      _ ≤ 16 * 16 ^ t.length := Nat.mul_le_mul_right _ hd
      _ = 16 ^ (t.length + 1) := by ring

theorem xor_split {k a1 b1 a2 b2 : Nat} (h1 : b1 < 2 ^ k) (h2 : b2 < 2 ^ k) :
    (2 ^ k * a1 + b1) ^^^ (2 ^ k * a2 + b2) = 2 ^ k * (a1 ^^^ a2) + (b1 ^^^ b2) := by
  apply Nat.eq_of_testBit_eq
  intro i
  have hx : b1 ^^^ b2 < 2 ^ k := Nat.xor_lt_two_pow h1 h2
  rw [Nat.testBit_xor, Nat.testBit_mul_pow_two_add _ h1, Nat.testBit_mul_pow_two_add _ h2,
      Nat.testBit_mul_pow_two_add _ hx]
  by_cases h : i < k
  · simp [h]
  · simp [h]

theorem sixteen_pow (k : Nat) : (16 : Nat) ^ k = 2 ^ (4 * k) := by
  rw [show (16 : Nat) = 2 ^ 4 by norm_num, ← pow_mul]

theorem hexToNat_zipWith_xor (a : List Nat) :
    ∀ b, ValidHex a → ValidHex b → a.length = b.length →
      hexToNat (List.zipWith (· ^^^ ·) a b) = hexToNat a ^^^ hexToNat b := by
  induction a with
  | nil =>
    intro b _ _ hlen
    have hb0 : b = [] := List.length_eq_zero.mp (by simpa using hlen.symm)
    subst hb0
    simp [hexToNat]
  | cons x xs ih =>
    intro b ha hb hlen
    match b with
    | [] => simp at hlen
    | y :: ys =>
      simp only [List.zipWith_cons_cons]
      have hlen' : xs.length = ys.length := by simpa using hlen
      have hxs : ValidHex xs := fun d hd => ha d (by simp [hd])
      have hys : ValidHex ys := fun d hd => hb d (by simp [hd])
      rw [hexToNat_cons, hexToNat_cons, hexToNat_cons,
          ih ys hxs hys hlen',
          List.length_zipWith, hlen', Nat.min_self]
      have hx16 : x < 16 := ha x (by simp)
      have hy16 : y < 16 := hb y (by simp)
      have h1 : hexToNat xs < 2 ^ (4 * xs.length) := by
        rw [← sixteen_pow]; exact hexToNat_lt xs hxs
      have h2 : hexToNat ys < 2 ^ (4 * ys.length) := by
        rw [← sixteen_pow]; exact hexToNat_lt ys hys
      rw [hlen'] at h1
      rw [sixteen_pow, Nat.mul_comm x, Nat.mul_comm y, Nat.mul_comm (x ^^^ y)]
      rw [xor_split h1 h2]

theorem formatHexAux_eq_digits : ∀ fuel v, v ≤ fuel → formatHexAux fuel v = Nat.digits 16 v := by
  intro fuel
  induction fuel with
  | zero =>
    intro v hv
    have : v = 0 := by omega
    subst this
    simp [formatHexAux]
  | succ fuel ih =>
    intro v hv
    by_cases h0 : v = 0
    · simp [formatHexAux, h0]
    · rw [formatHexAux, if_neg h0,
        Nat.digits_def' (by norm_num : (1:ℕ) < 16) (Nat.pos_of_ne_zero h0)]
      congr 1
      apply ih
      have : v / 16 < v := Nat.div_lt_self (Nat.pos_of_ne_zero h0) (by norm_num)
      omega

theorem formatHex_eq (v : Nat) :
    formatHex v = if v = 0 then [0] else (Nat.digits 16 v).reverse := by
  unfold formatHex
  by_cases h : v = 0
  · simp [h]
  · rw [if_neg h, if_neg h, formatHexAux_eq_digits (v + 1) v (by omega)]

theorem hexToNat_eq_ofDigits (l : List Nat) : hexToNat l = Nat.ofDigits 16 l.reverse := by
  induction l with
  | nil => simp [hexToNat]
  | cons d t ih =>
    rw [hexToNat_cons, ih, List.reverse_cons, Nat.ofDigits_append]
    simp [Nat.ofDigits_singleton]
    ring

theorem formatHex_length_le {v n : Nat} (hv : v < 16 ^ n) (hn : 1 ≤ n) :
    (formatHex v).length ≤ n := by
  rw [formatHex_eq]
  by_cases h : v = 0
  · simpa [h] using hn
  · rw [if_neg h, List.length_reverse, Nat.digits_len 16 v (by norm_num) h]
    have hlog : Nat.log 16 v < n := Nat.log_lt_of_lt_pow h hv
    omega

theorem zfill_eq_self {l : List Nat} {n : Nat} (h : l.length = n) : zfill n l = l := by
  simp [zfill, h]

theorem zfill_cons {l : List Nat} {n : Nat} (h : l.length ≤ n) :
    zfill (n + 1) l = 0 :: zfill n l := by
  unfold zfill
  have hrw : n + 1 - l.length = (n - l.length) + 1 := by omega
  rw [hrw, List.replicate_succ]
  simp

theorem zfill_formatHex : ∀ c : List Nat, ValidHex c → 0 < c.length →
    zfill c.length (formatHex (hexToNat c)) = c := by
  intro c
  induction c with
  | nil => intro _ h; simp at h
  | cons d t ih =>
    intro hv _
    rcases t with _ | ⟨e, t'⟩
    · have hd : d < 16 := hv d (by simp)
      by_cases h0 : d = 0
      · subst h0
        have h1 : hexToNat [0] = 0 := by simp [hexToNat]
        rw [h1, formatHex_eq]
        simp [zfill]
      · have h1 : hexToNat [d] = d := by simp [hexToNat]
        rw [h1, formatHex_eq, if_neg h0, Nat.digits_of_lt 16 d h0 hd]
        simp [zfill]
    · have htv : ValidHex (e :: t') := fun x hx => hv x (List.mem_cons_of_mem _ hx)
      by_cases h0 : d = 0
      · subst h0
        have hlt : hexToNat (e :: t') < 16 ^ (e :: t').length := hexToNat_lt _ htv
        have hname : hexToNat (0 :: e :: t') = hexToNat (e :: t') := by
          rw [hexToNat_cons]; simp
        have hfl : (formatHex (hexToNat (e :: t'))).length ≤ (e :: t').length :=
          formatHex_length_le hlt (by simp)
        have hlenc : (0 :: e :: t').length = (e :: t').length + 1 := rfl
        rw [hname, hlenc, zfill_cons hfl, ih htv (by simp)]
      · have hvrev : ∀ x ∈ (d :: e :: t').reverse, x < 16 := by
          intro x hx
          exact hv x (List.mem_reverse.mp hx)
        have hlast : ∀ h : (d :: e :: t').reverse ≠ [], ((d :: e :: t').reverse).getLast h ≠ 0 := by
          intro h
          rw [List.getLast_reverse]
          simpa using h0
        have hp : 0 < 16 ^ (e :: t').length := Nat.pos_pow_of_pos _ (by norm_num)
        have hne0 : hexToNat (d :: e :: t') ≠ 0 := by
          rw [hexToNat_cons]
          have hd1 : 1 ≤ d := Nat.pos_of_ne_zero h0
          have : 0 < d * 16 ^ (e :: t').length := Nat.mul_pos hd1 hp
          omega
        rw [formatHex_eq, if_neg hne0, hexToNat_eq_ofDigits,
          Nat.digits_ofDigits 16 (by norm_num) _ hvrev hlast, List.reverse_reverse]
        exact zfill_eq_self rfl

theorem validHex_zipWith_xor : ∀ a b : List Nat, ValidHex a → ValidHex b →
    ValidHex (List.zipWith (· ^^^ ·) a b) := by
  intro a
  induction a with
  | nil => intro b _ _ d hd; simp at hd
  | cons x xs ih =>
    intro b ha hb d hd
    match b with
    | [] => simp at hd
    | y :: ys =>
      rcases List.mem_cons.mp hd with h | h
      · subst h
        have hx : x < 2 ^ 4 := by simpa using ha x (by simp)
        have hy : y < 2 ^ 4 := by simpa using hb y (by simp)
        simpa using Nat.xor_lt_two_pow hx hy
      · exact ih ys (fun z hz => ha z (by simp [hz])) (fun z hz => hb z (by simp [hz])) d h

theorem xor_eq_zipWith {a b : List Nat} {n : Nat} (ha : ValidHex a) (hb : ValidHex b)
    (hla : a.length = n) (hlb : b.length = n) (hn : 0 < n) :
    xor a b n = some (List.zipWith (· ^^^ ·) a b) := by
  have hane : a ≠ [] := by
    intro h; subst h; simp at hla; omega
  have hbne : b ≠ [] := by
    intro h; subst h; simp at hlb; omega
  have hzl : (List.zipWith (· ^^^ ·) a b).length = n := by
    rw [List.length_zipWith, hla, hlb, Nat.min_self]
  have hzv : ValidHex (List.zipWith (· ^^^ ·) a b) := validHex_zipWith_xor a b ha hb
  unfold xor intHex
  rw [if_neg hane, if_neg hbne]
  show some (zfill n (formatHex (hexToNat a ^^^ hexToNat b))) = _
  congr 1
  rw [← hexToNat_zipWith_xor a b ha hb (hla.trans hlb.symm), ← hzl]
  exact zfill_formatHex _ hzv (by omega)

/-! ## Bytes versus hex digits -/

theorem bytesOfHex_length : ∀ s : List Nat, (bytesOfHex s).length = s.length / 2
  | [] => rfl
  | [_] => by simp [bytesOfHex]
  | _ :: _ :: t => by
    simp only [bytesOfHex, List.length_cons, bytesOfHex_length t]
    omega

theorem bytesOfHex_getD : ∀ (s : List Nat) (i : Nat), 2 * i + 1 < s.length →
    (bytesOfHex s).getD i 0 = 16 * s.getD (2 * i) 0 + s.getD (2 * i + 1) 0
  | [], i, h => by simp at h
  | [_], i, h => by simp at h
  | x :: y :: t, 0, _ => by simp [bytesOfHex]
  | x :: y :: t, i + 1, hlen => by
    have hlen' : 2 * i + 1 < t.length := by
      simp only [List.length_cons] at hlen; omega
    have h1 : 2 * (i + 1) = 2 * i + 1 + 1 := by ring
    have h2 : 2 * (i + 1) + 1 = 2 * i + 1 + 1 + 1 := by ring
    rw [h2, h1]
    simp only [bytesOfHex, List.getD_cons_succ]
    exact bytesOfHex_getD t i hlen'

theorem bytesOfHex_append : ∀ (a : List Nat), a.length % 2 = 0 → ∀ b,
    bytesOfHex (a ++ b) = bytesOfHex a ++ bytesOfHex b
  | [], _, b => rfl
  | [_], h, _ => by simp at h
  | x :: y :: t, h, b => by
    have ht : t.length % 2 = 0 := by
      simp only [List.length_cons] at h; omega
    simp only [List.cons_append, bytesOfHex]
    exact congrArg (List.cons _) (bytesOfHex_append t ht b)

theorem bytesOfHex_take : ∀ (k : Nat) (s : List Nat),
    bytesOfHex (s.take (2 * k)) = (bytesOfHex s).take k
  | 0, s => by simp [bytesOfHex]
  | k + 1, [] => by simp [bytesOfHex]
  | k + 1, [x] => by simp [bytesOfHex]
  | k + 1, x :: y :: t => by
    have h1 : 2 * (k + 1) = 2 * k + 1 + 1 := by ring
    rw [h1]
    simp only [List.take_succ_cons, bytesOfHex]
    rw [bytesOfHex_take k t]

theorem bytesOfHex_drop : ∀ (k : Nat) (s : List Nat),
    bytesOfHex (s.drop (2 * k)) = (bytesOfHex s).drop k
  | 0, s => by simp
  | k + 1, [] => by simp [bytesOfHex]
  | k + 1, [x] => by simp [bytesOfHex]
  | k + 1, x :: y :: t => by
    have h1 : 2 * (k + 1) = 2 * k + 1 + 1 := by ring
    rw [h1]
    simp only [List.drop_succ_cons, bytesOfHex]
    exact bytesOfHex_drop k t

theorem bytesOfHex_zipWith_xor : ∀ (a b : List Nat), ValidHex a → ValidHex b →
    bytesOfHex (List.zipWith (· ^^^ ·) a b) =
      List.zipWith (· ^^^ ·) (bytesOfHex a) (bytesOfHex b)
  | [], b, _, _ => by simp [bytesOfHex]
  | [x], b, _, _ => by
    match b with
    | [] => simp [bytesOfHex]
    | [y] => simp [bytesOfHex]
    | y :: z :: u => simp [bytesOfHex]
  | x1 :: x2 :: t, [], _, _ => by simp [bytesOfHex]
  | x1 :: x2 :: t, [y], _, _ => by simp [bytesOfHex]
  | x1 :: x2 :: t, y1 :: y2 :: u, ha, hb => by
    have hx2 : x2 < 2 ^ 4 := by
      simpa using ha x2 (by simp)
    have hy2 : y2 < 2 ^ 4 := by
      simpa using hb y2 (by simp)
    have ht : ValidHex t := fun d hd => ha d (by simp [hd])
    have hu : ValidHex u := fun d hd => hb d (by simp [hd])
    simp only [List.zipWith_cons_cons, bytesOfHex]
    rw [bytesOfHex_zipWith_xor t u ht hu]
    congr 1
    have := @xor_split 4 x1 x2 y1 y2 hx2 hy2
    simpa [Nat.mul_comm] using this.symm

theorem bytesOfHex_hexPair_append (b : Nat) (rest : List Nat) :
    bytesOfHex (hexPair b ++ rest) = b :: bytesOfHex rest := by
  simp only [hexPair, List.cons_append, List.nil_append, bytesOfHex]
  rw [Nat.div_add_mod b 16]
  rfl

theorem hexOfBytes_cons (b : Nat) (t : List Nat) :
    hexOfBytes (b :: t) = hexPair b ++ hexOfBytes t := by
  simp [hexOfBytes]

theorem bytesOfHex_hexOfBytes : ∀ l : List Nat, bytesOfHex (hexOfBytes l) = l
  | [] => rfl
  | b :: t => by
    rw [hexOfBytes_cons, bytesOfHex_hexPair_append, bytesOfHex_hexOfBytes t]

theorem hexOfBytes_length (l : List Nat) : (hexOfBytes l).length = 2 * l.length := by
  induction l with
  | nil => rfl
  | cons b t ih =>
    rw [hexOfBytes_cons]
    simp only [List.length_append, List.length_cons, ih, hexPair, List.length_nil]
    omega

theorem validHex_hexOfBytes {l : List Nat} (h : ∀ b ∈ l, b < 256) : ValidHex (hexOfBytes l) := by
  induction l with
  | nil => intro d hd; simp [hexOfBytes] at hd
  | cons b t ih =>
    intro d hd
    rw [hexOfBytes_cons] at hd
    rcases List.mem_append.mp hd with h1 | h1
    · have hb : b < 256 := h b (by simp)
      rcases (by simpa [hexPair] using h1 : d = b / 16 ∨ d = b % 16) with rfl | rfl
      · omega
      · omega
    · exact ih (fun z hz => h z (by simp [hz])) d h1

theorem hexOfBytes_take : ∀ (k : Nat) (l : List Nat),
    (hexOfBytes l).take (2 * k) = hexOfBytes (l.take k)
  | 0, l => by simp [hexOfBytes]
  | k + 1, [] => by simp [hexOfBytes]
  | k + 1, b :: t => by
    rw [hexOfBytes_cons, List.take_succ_cons, hexOfBytes_cons]
    have h1 : 2 * (k + 1) = 2 * k + 1 + 1 := by ring
    rw [h1]
    simp only [hexPair, List.cons_append, List.take_succ_cons, List.nil_append]
    rw [hexOfBytes_take k t]

theorem tbl_map_range {f : Nat → Nat} {n a : Nat} (h : a < n) :
    tbl ((List.range n).map f) a = f a := by
  unfold tbl
  have hlen : a < ((List.range n).map f).length := by simpa using h
  rw [List.getD_eq_getElem _ _ hlen]
  simp

/-! ## Characterising `subByte`/`subByteInv` -/

theorem hexToNat_pair (a b : Nat) : hexToNat [a, b] = 16 * a + b := by
  simp [hexToNat]

theorem drop_cons_two : ∀ (s : List Nat) (a : Nat), a + 2 ≤ s.length →
    s.drop a = s.getD a 0 :: s.getD (a + 1) 0 :: s.drop (a + 2)
  | [], a, h => by simp at h
  | x :: t, 0, h => by
    match t, h with
    | y :: u, _ => rfl
  | x :: t, a + 1, h => by
    simp only [List.drop_succ_cons, List.getD_cons_succ]
    have h' : a + 2 ≤ t.length := by
      simp only [List.length_cons] at h; omega
    have := drop_cons_two t a h'
    rw [this]

theorem sliceN_pair {s : List Nat} {a : Nat} (h : a + 2 ≤ s.length) :
    sliceN s a (a + 2) = [s.getD a 0, s.getD (a + 1) 0] := by
  unfold sliceN
  have h2 : a + 2 - a = 2 := by omega
  rw [h2, drop_cons_two s a h]
  rfl

theorem subWith_go (table : Nat → List Nat) (s : List Nat) :
    ∀ (L k : Nat) (acc : List Nat), s.length = 2 * (k + L) →
      (List.range' k L).foldlM (fun res i => do
        let v ← intHex (sliceN s (2 * i) (2 * i + 2))
        return res ++ table v) acc
      = some (acc ++ ((bytesOfHex (s.drop (2 * k))).map table).flatten) := by
  intro L
  induction L with
  | zero =>
    intro k acc hl
    have hdrop : s.drop (2 * k) = [] := by
      apply List.drop_eq_nil_of_le
      omega
    simp [hdrop, bytesOfHex]
  | succ L ih =>
    intro k acc hl
    have hk2 : 2 * k + 2 ≤ s.length := by omega
    rw [List.range'_succ, List.foldlM_cons]
    have hslice : sliceN s (2 * k) (2 * k + 2) = [s.getD (2 * k) 0, s.getD (2 * k + 1) 0] :=
      sliceN_pair hk2
    have hint : intHex (sliceN s (2 * k) (2 * k + 2)) =
        some (16 * s.getD (2 * k) 0 + s.getD (2 * k + 1) 0) := by
      rw [hslice]
      simp [intHex, hexToNat_pair]
    simp only [hint, Option.pure_def, Option.bind_eq_bind, Option.some_bind]
    have ih' := ih (k + 1) (acc ++ table (16 * s.getD (2 * k) 0 + s.getD (2 * k + 1) 0))
        (by omega)
    simp only [Option.pure_def, Option.bind_eq_bind] at ih'
    rw [ih']
    congr 1
    have hdrop : s.drop (2 * k) =
        s.getD (2 * k) 0 :: s.getD (2 * k + 1) 0 :: s.drop (2 * k + 2) :=
      drop_cons_two s (2 * k) hk2
    have h2k : 2 * (k + 1) = 2 * k + 2 := by ring
    rw [hdrop, h2k]
    simp only [bytesOfHex, List.map_cons, List.flatten_cons]
    rw [List.append_assoc]

theorem subWith_eq_some {table : Nat → List Nat} {s : List Nat} {L : Nat}
    (hl : s.length = 2 * L) :
    subWith table s L = some (((bytesOfHex s).map table).flatten) := by
  unfold subWith
  rw [List.range_eq_range']
  have := subWith_go table s L 0 [] (by omega)
  simpa using this

theorem subByteInv_eq {s : List Nat} {L : Nat} (hl : s.length = 2 * L) :
    subByteInv s L = some (hexOfBytes ((bytesOfHex s).map sboxInvByte)) := by
  unfold subByteInv
  rw [subWith_eq_some hl]
  congr 1
  unfold hexOfBytes
  rw [List.map_map]
  rfl

theorem subByte_eq {s : List Nat} {L : Nat} (hl : s.length = 2 * L) :
    subByte s L = some (hexOfBytes ((bytesOfHex s).map sboxByte)) := by
  unfold subByte
  rw [subWith_eq_some hl]
  congr 1
  unfold hexOfBytes
  rw [List.map_map]
  rfl

/-! ## Range bounds for the GF(2^8) primitives -/

theorem xtime_lt {a : Nat} (h : a < 256) : xtime a < 256 := by
  unfold xtime
  by_cases h1 : a < 128
  · rw [if_pos h1]; omega
  · rw [if_neg h1]
    have h2 : (2 * a) % 256 < 2 ^ 8 := by
      have : (2 * a) % 256 < 256 := Nat.mod_lt _ (by norm_num)
      simpa using this
    have h3 : (0x1B : Nat) < 2 ^ 8 := by norm_num
    simpa using Nat.xor_lt_two_pow h2 h3

theorem gmulAux_lt : ∀ (k a b : Nat), a < 256 → gmulAux a b k < 256
  | 0, a, b, _ => by simp [gmulAux]
  | k + 1, a, b, h => by
    unfold gmulAux
    have h1 : (if b % 2 = 1 then a else 0) < 2 ^ 8 := by
      split
      · simpa using h
      · norm_num
    have h2 : gmulAux (xtime a) (b / 2) k < 2 ^ 8 := by
      simpa using gmulAux_lt k (xtime a) (b / 2) (xtime_lt h)
    simpa using Nat.xor_lt_two_pow h1 h2

theorem gmul_lt {a b : Nat} (h : a < 256) : gmul a b < 256 := gmulAux_lt 8 a b h

theorem tblD_lt {t : List Nat} (h : ∀ b ∈ t, b < 256) (x : Nat) : t.getD x 0 < 256 := by
  by_cases hx : x < t.length
  · rw [List.getD_eq_getElem _ _ hx]
    exact h _ (List.getElem_mem hx)
  · rw [List.getD_eq_getElem?_getD, List.getElem?_eq_none (by omega)]
    norm_num

theorem sboxT_lt : ∀ b ∈ sboxT, b < 256 := by decide

theorem sboxInvT_lt : ∀ b ∈ sboxInvT, b < 256 := by decide

theorem sboxByte_lt (x : Nat) : sboxByte x < 256 := tblD_lt sboxT_lt x

theorem sboxInvByte_lt (x : Nat) : sboxInvByte x < 256 := tblD_lt sboxInvT_lt x

theorem sbox_inverse_law :
    ((List.range 256).all (fun x => sboxInvByte (sboxByte x) == x)) = true := by decide

/-! ## Correspondence of the hex-level round operations with the byte level -/

theorem validHex_append {a b : List Nat} (ha : ValidHex a) (hb : ValidHex b) :
    ValidHex (a ++ b) := by
  intro d hd
  rcases List.mem_append.mp hd with h | h
  · exact ha d h
  · exact hb d h

theorem validHex_take {s : List Nat} (h : ValidHex s) (n : Nat) : ValidHex (s.take n) :=
  fun d hd => h d (List.mem_of_mem_take hd)

theorem validHex_drop {s : List Nat} (h : ValidHex s) (n : Nat) : ValidHex (s.drop n) :=
  fun d hd => h d (List.mem_of_mem_drop hd)

theorem validHex_hexPair {b : Nat} (h : b < 256) : ValidHex (hexPair b) := by
  intro d hd
  rcases (by simpa [hexPair] using hd : d = b / 16 ∨ d = b % 16) with rfl | rfl
  · omega
  · omega

theorem bytesOfHex_mem_lt : ∀ {s : List Nat}, ValidHex s → ∀ b ∈ bytesOfHex s, b < 256
  | [], _, b, hb => by simp [bytesOfHex] at hb
  | [_], _, b, hb => by simp [bytesOfHex] at hb
  | x :: y :: t, hv, b, hb => by
    rcases List.mem_cons.mp hb with rfl | hb'
    · have hx : x < 16 := hv x (by simp)
      have hy : y < 16 := hv y (by simp)
      omega
    · exact bytesOfHex_mem_lt (fun d hd => hv d (by simp [hd])) b hb'

theorem bytesOfHex_getD_lt {s : List Nat} (hv : ValidHex s) (i : Nat) :
    (bytesOfHex s).getD i 0 < 256 := by
  by_cases h : i < (bytesOfHex s).length
  · rw [List.getD_eq_getElem _ _ h]
    exact bytesOfHex_mem_lt hv _ (List.getElem_mem h)
  · rw [List.getD_eq_getElem?_getD, List.getElem?_eq_none (by omega)]
    norm_num

theorem getD_mem_of_lt {s : List Nat} {i : Nat} (h : i < s.length) : s.getD i 0 ∈ s := by
  rw [List.getD_eq_getElem _ _ h]
  exact List.getElem_mem h

theorem shiftRowsInv_length (s : List Nat) : (shiftRowsInv s).length = 32 := rfl

theorem validHex_shiftRowsInv {s : List Nat} (hv : ValidHex s) (hl : s.length = 32) :
    ValidHex (shiftRowsInv s) := by
  have hm : ∀ i : Nat, i < 32 → s.getD i 0 < 16 := by
    intro i hi
    exact hv _ (getD_mem_of_lt (by omega))
  intro d hd
  simp only [shiftRowsInv, List.mem_cons, List.not_mem_nil, or_false] at hd
  rcases hd with rfl|rfl|rfl|rfl|rfl|rfl|rfl|rfl|rfl|rfl|rfl|rfl|rfl|rfl|rfl|rfl|rfl|rfl|rfl|rfl|rfl|rfl|rfl|rfl|rfl|rfl|rfl|rfl|rfl|rfl|rfl|rfl <;>
    exact hm _ (by omega)

theorem byte_getD (s : List Nat) (i : Nat) (h : 2 * i + 1 < s.length) :
    16 * s.getD (2 * i) 0 + s.getD (2 * i + 1) 0 = (bytesOfHex s).getD i 0 :=
  (bytesOfHex_getD s i h).symm

theorem bytesOfHex_shiftRowsInv {s : List Nat} (hl : s.length = 32) :
    bytesOfHex (shiftRowsInv s) = shiftRowsInvB (bytesOfHex s) := by
  have g0 : 16 * s.getD 0 0 + s.getD 1 0 = (bytesOfHex s).getD 0 0 := byte_getD s 0 (by omega)
  have g1 : 16 * s.getD 2 0 + s.getD 3 0 = (bytesOfHex s).getD 1 0 := byte_getD s 1 (by omega)
  have g2 : 16 * s.getD 4 0 + s.getD 5 0 = (bytesOfHex s).getD 2 0 := byte_getD s 2 (by omega)
  have g3 : 16 * s.getD 6 0 + s.getD 7 0 = (bytesOfHex s).getD 3 0 := byte_getD s 3 (by omega)
  have g4 : 16 * s.getD 8 0 + s.getD 9 0 = (bytesOfHex s).getD 4 0 := byte_getD s 4 (by omega)
  have g5 : 16 * s.getD 10 0 + s.getD 11 0 = (bytesOfHex s).getD 5 0 := byte_getD s 5 (by omega)
  have g6 : 16 * s.getD 12 0 + s.getD 13 0 = (bytesOfHex s).getD 6 0 := byte_getD s 6 (by omega)
  have g7 : 16 * s.getD 14 0 + s.getD 15 0 = (bytesOfHex s).getD 7 0 := byte_getD s 7 (by omega)
  have g8 : 16 * s.getD 16 0 + s.getD 17 0 = (bytesOfHex s).getD 8 0 := byte_getD s 8 (by omega)
  have g9 : 16 * s.getD 18 0 + s.getD 19 0 = (bytesOfHex s).getD 9 0 := byte_getD s 9 (by omega)
  have g10 : 16 * s.getD 20 0 + s.getD 21 0 = (bytesOfHex s).getD 10 0 := byte_getD s 10 (by omega)
  have g11 : 16 * s.getD 22 0 + s.getD 23 0 = (bytesOfHex s).getD 11 0 := byte_getD s 11 (by omega)
  have g12 : 16 * s.getD 24 0 + s.getD 25 0 = (bytesOfHex s).getD 12 0 := byte_getD s 12 (by omega)
  have g13 : 16 * s.getD 26 0 + s.getD 27 0 = (bytesOfHex s).getD 13 0 := byte_getD s 13 (by omega)
  have g14 : 16 * s.getD 28 0 + s.getD 29 0 = (bytesOfHex s).getD 14 0 := byte_getD s 14 (by omega)
  have g15 : 16 * s.getD 30 0 + s.getD 31 0 = (bytesOfHex s).getD 15 0 := byte_getD s 15 (by omega)
  simp only [shiftRowsInvB, shiftIdx, List.map_cons, List.map_nil, shiftRowsInv, bytesOfHex]
  rw [g0, g1, g2, g3, g4, g5, g6, g7, g8, g9, g10, g11, g12, g13, g14, g15]

theorem range_four : List.range 4 = [0, 1, 2, 3] := rfl

theorem xor_byte_lt {x y : Nat} (hx : x < 256) (hy : y < 256) : x ^^^ y < 256 := by
  have hx8 : x < 2 ^ 8 := by omega
  have hy8 : y < 2 ^ 8 := by omega
  have := Nat.xor_lt_two_pow hx8 hy8
  omega

theorem xor4_lt {a b c d : Nat} (ha : a < 256) (hb : b < 256) (hc : c < 256) (hd : d < 256) :
    a ^^^ b ^^^ c ^^^ d < 256 :=
  xor_byte_lt (xor_byte_lt (xor_byte_lt ha hb) hc) hd

theorem mixColumnsInvB_mem_lt (st : List Nat) : ∀ x ∈ mixColumnsInvB st, x < 256 := by
  intro x hx
  have hg : ∀ c a : Nat, c < 256 → gmul c a < 256 := fun c a hc => gmul_lt hc
  simp only [mixColumnsInvB, range_four, List.map_cons, List.map_nil, List.flatten_cons,
    List.flatten_nil, List.append_nil, List.mem_append, List.mem_cons, List.not_mem_nil,
    or_false, or_assoc] at hx
  rcases hx with rfl|rfl|rfl|rfl|rfl|rfl|rfl|rfl|rfl|rfl|rfl|rfl|rfl|rfl|rfl|rfl <;>
    exact xor4_lt (hg _ _ (by norm_num)) (hg _ _ (by norm_num)) (hg _ _ (by norm_num))
      (hg _ _ (by norm_num))

theorem mixColumnsInvB_length (st : List Nat) : (mixColumnsInvB st).length = 16 := rfl

theorem mixColumnsInv_eq {s : List Nat} (hv : ValidHex s) (hl : s.length = 32) :
    mixColumnsInv s = hexOfBytes (mixColumnsInvB (bytesOfHex s)) := by
  have hlt : ∀ i : Nat, ((bytesOfHex s)[i]?).getD 0 < 256 := fun i => by
    have := bytesOfHex_getD_lt hv i
    rwa [List.getD_eq_getElem?_getD] at this
  have t09 : ∀ i : Nat, tbl mult09 (((bytesOfHex s)[i]?).getD 0) =
      gmul 0x09 (((bytesOfHex s)[i]?).getD 0) := fun i => by
    unfold mult09; exact tbl_map_range (hlt i)
  have t0B : ∀ i : Nat, tbl mult0B (((bytesOfHex s)[i]?).getD 0) =
      gmul 0x0B (((bytesOfHex s)[i]?).getD 0) := fun i => by
    unfold mult0B; exact tbl_map_range (hlt i)
  have t0D : ∀ i : Nat, tbl mult0D (((bytesOfHex s)[i]?).getD 0) =
      gmul 0x0D (((bytesOfHex s)[i]?).getD 0) := fun i => by
    unfold mult0D; exact tbl_map_range (hlt i)
  have t0E : ∀ i : Nat, tbl mult0E (((bytesOfHex s)[i]?).getD 0) =
      gmul 0x0E (((bytesOfHex s)[i]?).getD 0) := fun i => by
    unfold mult0E; exact tbl_map_range (hlt i)
  have g : ∀ i : Nat, 2 * i + 1 < 32 →
      16 * (s[2 * i]?).getD 0 + (s[2 * i + 1]?).getD 0 = ((bytesOfHex s)[i]?).getD 0 := by
    intro i hi
    have := byte_getD s i (by omega)
    rwa [List.getD_eq_getElem?_getD, List.getD_eq_getElem?_getD,
      List.getD_eq_getElem?_getD] at this
  have g0 : 16 * (s[0]?).getD 0 + (s[1]?).getD 0 = ((bytesOfHex s)[0]?).getD 0 := g 0 (by omega)
  have g1 : 16 * (s[2]?).getD 0 + (s[3]?).getD 0 = ((bytesOfHex s)[1]?).getD 0 := g 1 (by omega)
  have g2 : 16 * (s[4]?).getD 0 + (s[5]?).getD 0 = ((bytesOfHex s)[2]?).getD 0 := g 2 (by omega)
  have g3 : 16 * (s[6]?).getD 0 + (s[7]?).getD 0 = ((bytesOfHex s)[3]?).getD 0 := g 3 (by omega)
  have g4 : 16 * (s[8]?).getD 0 + (s[9]?).getD 0 = ((bytesOfHex s)[4]?).getD 0 := g 4 (by omega)
  have g5 : 16 * (s[10]?).getD 0 + (s[11]?).getD 0 = ((bytesOfHex s)[5]?).getD 0 := g 5 (by omega)
  have g6 : 16 * (s[12]?).getD 0 + (s[13]?).getD 0 = ((bytesOfHex s)[6]?).getD 0 := g 6 (by omega)
  have g7 : 16 * (s[14]?).getD 0 + (s[15]?).getD 0 = ((bytesOfHex s)[7]?).getD 0 := g 7 (by omega)
  have g8 : 16 * (s[16]?).getD 0 + (s[17]?).getD 0 = ((bytesOfHex s)[8]?).getD 0 := g 8 (by omega)
  have g9 : 16 * (s[18]?).getD 0 + (s[19]?).getD 0 = ((bytesOfHex s)[9]?).getD 0 := g 9 (by omega)
  have g10 : 16 * (s[20]?).getD 0 + (s[21]?).getD 0 = ((bytesOfHex s)[10]?).getD 0 := g 10 (by omega)
  have g11 : 16 * (s[22]?).getD 0 + (s[23]?).getD 0 = ((bytesOfHex s)[11]?).getD 0 := g 11 (by omega)
  have g12 : 16 * (s[24]?).getD 0 + (s[25]?).getD 0 = ((bytesOfHex s)[12]?).getD 0 := g 12 (by omega)
  have g13 : 16 * (s[26]?).getD 0 + (s[27]?).getD 0 = ((bytesOfHex s)[13]?).getD 0 := g 13 (by omega)
  have g14 : 16 * (s[28]?).getD 0 + (s[29]?).getD 0 = ((bytesOfHex s)[14]?).getD 0 := g 14 (by omega)
  have g15 : 16 * (s[30]?).getD 0 + (s[31]?).getD 0 = ((bytesOfHex s)[15]?).getD 0 := g 15 (by omega)
  simp only [mixColumnsInv, mixColumnsInvB, range_four, List.map_cons, List.map_nil,
    List.flatten_cons, List.flatten_nil, List.append_nil]
  norm_num
  rw [g0, g1, g2, g3, g4, g5, g6, g7, g8, g9, g10, g11, g12, g13, g14, g15]
  simp only [t09, t0B, t0D, t0E, hexOfBytes, List.map_cons, List.map_nil, List.flatten_cons,
    List.flatten_nil, List.append_nil, List.append_assoc]

theorem mixColumnsInv_good {s : List Nat} (hg : GoodBlock s) :
    GoodBlock (mixColumnsInv s) ∧ bytesOfHex (mixColumnsInv s) = mixColumnsInvB (bytesOfHex s) := by
  obtain ⟨hl, hv⟩ := hg
  have heq := mixColumnsInv_eq hv hl
  have hbnd := mixColumnsInvB_mem_lt (bytesOfHex s)
  refine ⟨⟨?_, ?_⟩, ?_⟩
  · rw [heq, hexOfBytes_length, mixColumnsInvB_length]
  · rw [heq]
    exact validHex_hexOfBytes hbnd
  · rw [heq, bytesOfHex_hexOfBytes]

theorem shiftRowsInv_good {s : List Nat} (hg : GoodBlock s) :
    GoodBlock (shiftRowsInv s) ∧ bytesOfHex (shiftRowsInv s) = shiftRowsInvB (bytesOfHex s) := by
  obtain ⟨hl, hv⟩ := hg
  exact ⟨⟨shiftRowsInv_length s, validHex_shiftRowsInv hv hl⟩, bytesOfHex_shiftRowsInv hl⟩

theorem subByteInv_good {s : List Nat} (hg : GoodBlock s) :
    ∃ u, subByteInv s 16 = some u ∧ GoodBlock u ∧ bytesOfHex u = subBytesInvB (bytesOfHex s) := by
  obtain ⟨hl, hv⟩ := hg
  refine ⟨_, subByteInv_eq (by omega), ⟨?_, ?_⟩, ?_⟩
  · rw [hexOfBytes_length, List.length_map, bytesOfHex_length, hl]
  · refine validHex_hexOfBytes ?_
    intro b hb
    rcases List.mem_map.mp hb with ⟨a, _, rfl⟩
    exact sboxInvByte_lt a
  · rw [bytesOfHex_hexOfBytes]
    rfl

theorem xor_good {a b : List Nat} (ha : GoodBlock a) (hb : GoodBlock b) :
    ∃ u, xor a b 32 = some u ∧ GoodBlock u ∧
      bytesOfHex u = addRoundKeyB (bytesOfHex a) (bytesOfHex b) := by
  obtain ⟨hla, hva⟩ := ha
  obtain ⟨hlb, hvb⟩ := hb
  refine ⟨_, xor_eq_zipWith hva hvb hla hlb (by norm_num), ⟨?_, ?_⟩, ?_⟩
  · rw [List.length_zipWith, hla, hlb]
    exact Nat.min_self 32
  · exact validHex_zipWith_xor a b hva hvb
  · rw [bytesOfHex_zipWith_xor a b hva hvb]
    rfl

theorem goodKeys_getD {ks : List (List Nat)} (hk : GoodKeys ks) {i : Nat} (hi : i < 11) :
    GoodBlock (ks.getD i []) := by
  obtain ⟨hlen, hall⟩ := hk
  have h : i < ks.length := by omega
  rw [List.getD_eq_getElem _ _ h]
  exact hall _ (List.getElem_mem h)

theorem decRounds_corr {Rkey : List (List Nat)} (hk : GoodKeys Rkey) :
    ∀ fuel : Nat, fuel ≤ 9 → ∀ {b : List Nat}, GoodBlock b →
    ∃ b2, decRounds Rkey b fuel = some b2 ∧ GoodBlock b2 ∧
      bytesOfHex b2 = invRoundsB (fun i => bytesOfHex (Rkey.getD i [])) (bytesOfHex b) fuel := by
  intro fuel
  induction fuel with
  | zero =>
    intro _ b hb
    exact ⟨b, rfl, hb, rfl⟩
  | succ r ih =>
    intro hr b hb
    obtain ⟨hgs, hbs⟩ := shiftRowsInv_good hb
    obtain ⟨u, hu, hgu, hbu⟩ := subByteInv_good hgs
    have hrk : GoodBlock (Rkey.getD (r + 1) []) := goodKeys_getD hk (by omega)
    obtain ⟨v, hv2, hgv, hbv⟩ := xor_good hgu hrk
    obtain ⟨hgm, hbm⟩ := mixColumnsInv_good hgv
    obtain ⟨b2, hb2, hgb2, hbb2⟩ := ih (by omega) hgm
    refine ⟨b2, ?_, hgb2, ?_⟩
    · show decRounds Rkey b (r + 1) = some b2
      unfold decRounds
      rw [hu]
      simp only [Option.pure_def, Option.bind_eq_bind, Option.some_bind]
      rw [hv2]
      simp only [Option.some_bind]
      exact hb2
    · rw [hbb2, hbm, hbv, hbu, hbs]
      rfl

theorem decryptBlockSpec_corr {Rkey : List (List Nat)} {ct : List Nat} (hk : GoodKeys Rkey)
    (hct : GoodBlock ct) :
    ∃ pt, decryptBlockSpec Rkey ct = some pt ∧ GoodBlock pt ∧
      bytesOfHex pt = invCipherStd (fun i => bytesOfHex (Rkey.getD i [])) (bytesOfHex ct) := by
  have hrk10 : GoodBlock (Rkey.getD 10 []) := goodKeys_getD hk (by omega)
  obtain ⟨b, hb, hgb, hbb⟩ := xor_good hct hrk10
  obtain ⟨b2, hb2, hgb2, hbb2⟩ := decRounds_corr hk 9 (by omega) hgb
  obtain ⟨hgs, hbs⟩ := shiftRowsInv_good hgb2
  obtain ⟨u, hu, hgu, hbu⟩ := subByteInv_good hgs
  have hrk0 : GoodBlock (Rkey.getD 0 []) := goodKeys_getD hk (by omega)
  obtain ⟨pt, hpt, hgpt, hbpt⟩ := xor_good hgu hrk0
  refine ⟨pt, ?_, hgpt, ?_⟩
  · unfold decryptBlockSpec
    rw [hb]
    simp only [Option.pure_def, Option.bind_eq_bind, Option.some_bind]
    rw [hb2]
    simp only [Option.some_bind]
    rw [hu]
    simp only [Option.some_bind]
    exact hpt
  · rw [hbpt, hbu, hbs, hbb2, hbb]
    rfl

/-! ## Key-schedule correspondence -/

theorem word_length {prev : List Nat} (hl : 32 ≤ prev.length) {a b : Nat} (hab : a + 8 = b)
    (hb : b ≤ 32) : (sliceN prev a b).length = 8 := by
  unfold sliceN
  rw [List.length_take, List.length_drop]
  omega

theorem validHex_sliceN {s : List Nat} (hv : ValidHex s) (a b : Nat) :
    ValidHex (sliceN s a b) :=
  fun d hd => hv d (List.mem_of_mem_drop (List.mem_of_mem_take hd))

theorem bytesOfHex_w0 {prev : List Nat} :
    bytesOfHex (sliceN prev 0 8) = (bytesOfHex prev).take 4 := by
  unfold sliceN
  rw [List.drop_zero]
  rw [(by norm_num : (8 : Nat) - 0 = 2 * 4), bytesOfHex_take]

theorem bytesOfHex_w1 {prev : List Nat} :
    bytesOfHex (sliceN prev 8 16) = ((bytesOfHex prev).drop 4).take 4 := by
  unfold sliceN
  rw [(by norm_num : (16 : Nat) - 8 = 2 * 4), (by norm_num : (8 : Nat) = 2 * 4),
    bytesOfHex_take, bytesOfHex_drop]

theorem bytesOfHex_w2 {prev : List Nat} :
    bytesOfHex (sliceN prev 16 24) = ((bytesOfHex prev).drop 8).take 4 := by
  unfold sliceN
  rw [(by norm_num : (24 : Nat) - 16 = 2 * 4), (by norm_num : (16 : Nat) = 2 * 8),
    bytesOfHex_take, bytesOfHex_drop]

theorem bytesOfHex_w3 {prev : List Nat} :
    bytesOfHex (sliceN prev 24 32) = ((bytesOfHex prev).drop 12).take 4 := by
  unfold sliceN
  rw [(by norm_num : (32 : Nat) - 24 = 2 * 4), (by norm_num : (24 : Nat) = 2 * 12),
    bytesOfHex_take, bytesOfHex_drop]

theorem take16_word (B : List Nat) (k : Nat) (hk : k + 4 ≤ 16) :
    ((B.take 16).drop k).take 4 = (B.drop k).take 4 := by
  rw [List.take_drop, List.take_drop, List.take_take]
  congr 1
  congr 1
  exact Nat.min_eq_left (by omega)

theorem bytesOfHex_take16 {prev : List Nat} :
    bytesOfHex (prev.take 32) = (bytesOfHex prev).take 16 := by
  rw [(by norm_num : (32 : Nat) = 2 * 16), bytesOfHex_take]

theorem bytesOfHex_rot_word {w : List Nat} (hw : w.length = 8) :
    bytesOfHex (rot w 2 8) = rotWordB (bytesOfHex w) := by
  show bytesOfHex (w.drop (2 % 8) ++ w.take (2 % 8)) = _
  norm_num
  have hev : (w.drop 2).length % 2 = 0 := by
    rw [List.length_drop, hw]
  rw [bytesOfHex_append _ hev]
  rw [(by norm_num : (2 : Nat) = 2 * 1), bytesOfHex_take, bytesOfHex_drop]
  rfl

theorem rcon_good {i : Nat} (h1 : 1 ≤ i) (h2 : i ≤ 10) :
    (Rcon.getD i []).length = 8 ∧ ValidHex (Rcon.getD i []) ∧
      bytesOfHex (Rcon.getD i []) = rconB i := by
  interval_cases i <;> exact ⟨rfl, by decide, by decide⟩

theorem xor_word {a b : List Nat} (ha : ValidHex a) (hb : ValidHex b)
    (hla : a.length = 8) (hlb : b.length = 8) :
    ∃ u, xor a b 8 = some u ∧ u.length = 8 ∧ ValidHex u ∧
      bytesOfHex u = List.zipWith (· ^^^ ·) (bytesOfHex a) (bytesOfHex b) := by
  refine ⟨_, xor_eq_zipWith ha hb hla hlb (by norm_num), ?_, ?_, ?_⟩
  · rw [List.length_zipWith, hla, hlb]
    exact Nat.min_self 8
  · exact validHex_zipWith_xor a b ha hb
  · exact bytesOfHex_zipWith_xor a b ha hb

theorem subByte_word {s : List Nat} (hv : ValidHex s) (hl : s.length = 8) :
    ∃ u, subByte s 4 = some u ∧ u.length = 8 ∧ ValidHex u ∧
      bytesOfHex u = (bytesOfHex s).map sboxByte := by
  refine ⟨_, subByte_eq (by omega), ?_, ?_, ?_⟩
  · rw [hexOfBytes_length, List.length_map, bytesOfHex_length, hl]
  · refine validHex_hexOfBytes ?_
    intro b hb
    rcases List.mem_map.mp hb with ⟨a, _, rfl⟩
    exact sboxByte_lt a
  · rw [bytesOfHex_hexOfBytes]

theorem expandStep_corr {prev : List Nat} {i : Nat} (hv : ValidHex prev)
    (hl : 32 ≤ prev.length) (h1 : 1 ≤ i) (h2 : i ≤ 10) :
    ∃ nk, expandStep prev (Rcon.getD i []) = some nk ∧ GoodBlock nk ∧
      bytesOfHex nk = stdKeyStep (bytesOfHex (prev.take 32)) i := by
  obtain ⟨hrcl, hrcv, hrcb⟩ := rcon_good h1 h2
  have hw0l : (sliceN prev 0 8).length = 8 := word_length hl (by norm_num) (by norm_num)
  have hw1l : (sliceN prev 8 16).length = 8 := word_length hl (by norm_num) (by norm_num)
  have hw2l : (sliceN prev 16 24).length = 8 := word_length hl (by norm_num) (by norm_num)
  have hw3l : (sliceN prev 24 32).length = 8 := word_length hl (by norm_num) (by norm_num)
  have hw0v := validHex_sliceN hv 0 8
  have hw1v := validHex_sliceN hv 8 16
  have hw2v := validHex_sliceN hv 16 24
  have hw3v := validHex_sliceN hv 24 32
  have hrotl : (rot (sliceN prev 24 32) 2 8).length = 8 := by
    show ((sliceN prev 24 32).drop (2 % 8) ++ (sliceN prev 24 32).take (2 % 8)).length = 8
    rw [List.length_append, List.length_take, List.length_drop, hw3l]
    omega
  have hrotv : ValidHex (rot (sliceN prev 24 32) 2 8) := by
    intro d hd
    rcases List.mem_append.mp hd with h | h
    · exact hw3v d (List.mem_of_mem_drop h)
    · exact hw3v d (List.mem_of_mem_take h)
  obtain ⟨sB, hsub, hsBl, hsBv, hsBb⟩ := subByte_word hrotv hrotl
  obtain ⟨tH, ht, htl, htv, htb⟩ := xor_word hsBv hrcv hsBl hrcl
  obtain ⟨r0, hx0, hr0l, hr0v, hr0b⟩ := xor_word hw0v htv hw0l htl
  obtain ⟨r1, hx1, hr1l, hr1v, hr1b⟩ := xor_word hw1v hr0v hw1l hr0l
  obtain ⟨r2, hx2, hr2l, hr2v, hr2b⟩ := xor_word hw2v hr1v hw2l hr1l
  obtain ⟨r3, hx3, hr3l, hr3v, hr3b⟩ := xor_word hw3v hr2v hw3l hr2l
  refine ⟨r0 ++ r1 ++ r2 ++ r3, ?_, ⟨?_, ?_⟩, ?_⟩
  · unfold expandStep
    simp only [Option.pure_def, Option.bind_eq_bind]
    rw [hsub]
    simp only [Option.some_bind]
    rw [ht]
    simp only [Option.some_bind]
    rw [hx0]
    simp only [Option.some_bind]
    rw [hx1]
    simp only [Option.some_bind]
    rw [hx2]
    simp only [Option.some_bind]
    rw [hx3]
    simp only [Option.some_bind]
  · simp [hr0l, hr1l, hr2l, hr3l]
  · exact validHex_append (validHex_append (validHex_append hr0v hr1v) hr2v) hr3v
  · have happ : bytesOfHex (r0 ++ r1 ++ r2 ++ r3) =
        bytesOfHex r0 ++ bytesOfHex r1 ++ bytesOfHex r2 ++ bytesOfHex r3 := by
      rw [bytesOfHex_append (r0 ++ r1 ++ r2) (by simp [hr0l, hr1l, hr2l]) r3,
        bytesOfHex_append (r0 ++ r1) (by simp [hr0l, hr1l]) r2,
        bytesOfHex_append r0 (by simp [hr0l]) r1]
    rw [happ, hr3b, hr2b, hr1b, hr0b, htb, hsBb,
      bytesOfHex_rot_word hw3l, hrcb,
      bytesOfHex_w0, bytesOfHex_w1, bytesOfHex_w2, bytesOfHex_w3,
      bytesOfHex_take16]
    simp only [stdKeyStep]
    rw [take16_word _ 4 (by norm_num), take16_word _ 8 (by norm_num),
      take16_word _ 12 (by norm_num), List.take_take]
    norm_num

theorem expandAux_corr {k0 : List Nat} : ∀ (fuel i : Nat) (prev : List Nat),
    ValidHex prev → 32 ≤ prev.length → 1 ≤ i → i + fuel ≤ 11 →
    bytesOfHex (prev.take 32) = stdRK k0 (i - 1) →
    ∃ l, expandAux prev i fuel = some l ∧ l.length = fuel ∧ (∀ x ∈ l, GoodBlock x) ∧
      ∀ j, j < fuel → bytesOfHex (l.getD j []) = stdRK k0 (i + j) := by
  intro fuel
  induction fuel with
  | zero =>
    intro i prev _ _ _ _ _
    exact ⟨[], rfl, rfl, by simp, fun j hj => by omega⟩
  | succ f ih =>
    intro i prev hv hl h1 hfi hprev
    obtain ⟨i', rfl⟩ : ∃ i', i = i' + 1 := ⟨i - 1, by omega⟩
    obtain ⟨nk, hnk, hgnk, hbnk⟩ := expandStep_corr hv hl h1 (by omega)
    obtain ⟨hnl, hnv⟩ := hgnk
    have hbnk' : bytesOfHex nk = stdRK k0 (i' + 1) := by
      rw [hbnk, hprev]
      simp only [Nat.add_sub_cancel]
      rfl
    have htake : nk.take 32 = nk := List.take_of_length_le (by omega)
    obtain ⟨l, hexp, hlen, hgood, hget⟩ := ih (i' + 2) nk hnv (by omega) (by omega) (by omega)
      (by rw [htake, hbnk']; congr 1)
    refine ⟨nk :: l, ?_, by simp [hlen], ?_, ?_⟩
    · unfold expandAux
      rw [hnk]
      simp only [Option.pure_def, Option.bind_eq_bind, Option.some_bind]
      rw [hexp]
      simp only [Option.some_bind]
    · intro x hx
      rcases List.mem_cons.mp hx with rfl | h
      · exact ⟨hnl, hnv⟩
      · exact hgood x h
    · intro j hj
      match j with
      | 0 =>
        simpa using hbnk'
      | j + 1 =>
        have := hget j (by omega)
        rw [List.getD_cons_succ, this]
        congr 1
        omega

theorem expandKey_corr {key : List Nat} (hv : ValidHex key) (hl : key.length = 32) :
    ∃ ks, expandKey key = some ks ∧ GoodKeys ks ∧ ks.getD 0 [] = key ∧
      ∀ i, i ≤ 10 → bytesOfHex (ks.getD i []) = stdRK (bytesOfHex key) i := by
  have htake : key.take 32 = key := List.take_of_length_le (by omega)
  obtain ⟨l, hexp, hlen, hgood, hget⟩ :=
    @expandAux_corr (bytesOfHex key) 10 1 key hv (by omega) (by omega) (by omega)
      (by rw [htake]; rfl)
  refine ⟨key :: l, ?_, ⟨by simp [hlen], ?_⟩, rfl, ?_⟩
  · unfold expandKey
    rw [hexp]
    simp only [Option.pure_def, Option.bind_eq_bind, Option.some_bind]
  · intro k hk
    rcases List.mem_cons.mp hk with rfl | h
    · exact ⟨hl, hv⟩
    · exact hgood k h
  · intro i hi
    match i with
    | 0 => rfl
    | i + 1 =>
      have hg := hget i (by omega)
      rw [List.getD_cons_succ, hg]
      congr 1
      omega

theorem expandKey_isSome {key : List Nat} (hv : ValidHex key) (hl : 32 ≤ key.length) :
    ∃ ks, expandKey key = some ks := by
  obtain ⟨l, hexp, _, _, _⟩ :=
    @expandAux_corr (bytesOfHex (key.take 32)) 10 1 key hv hl (by omega) (by omega) rfl
  refine ⟨key :: l, ?_⟩
  unfold expandKey
  rw [hexp]
  simp only [Option.pure_def, Option.bind_eq_bind, Option.some_bind]

/-! ## Characterising `padInv` -/

theorem intHex_pair (x y : Nat) : intHex [x, y] = some (16 * x + y) := by
  simp [intHex, hexToNat_pair]

theorem drop_take_comm (s : List Nat) (a b : Nat) :
    (s.take b).drop a = (s.drop a).take (b - a) := by
  by_cases h : a ≤ b
  · obtain ⟨m, rfl⟩ : ∃ m, b = a + m := ⟨b - a, by omega⟩
    rw [← List.take_drop]
    congr 1
    omega
  · rw [List.drop_eq_nil_of_le (by rw [List.length_take]; omega),
      (by omega : b - a = 0), List.take_zero]

theorem pySlice_nonneg {s : List Nat} {a b : Nat} (ha : a ≤ s.length) (hb : b ≤ s.length) :
    pySlice s (a : Int) (b : Int) = sliceN s a b := by
  unfold pySlice pyIx sliceN
  rw [if_neg (by omega : ¬((b : Int) < 0)), if_neg (by omega : ¬((a : Int) < 0))]
  simp only [Int.toNat_natCast]
  rw [Nat.min_eq_right hb, Nat.min_eq_right ha]
  exact drop_take_comm s a b

theorem padInvLoop_spec {plain : List Nat} {n pad : Nat}
    (hlen : plain.length = 2 * n) (hpad : pad ≤ n) :
    ∀ k, k ≤ pad →
    padInvLoop plain pad k =
      if ∀ j, pad - k ≤ j → j < pad → (bytesOfHex plain).getD (n - 1 - j) 0 = pad
      then some (plain.take (2 * n - 2 * pad))
      else some plain := by
  intro k
  induction k with
  | zero =>
    intro _
    rw [if_pos (fun j h1 h2 => absurd h1 (by omega))]
    show some (pySlice plain 0 ((plain.length : Int) - 2 * pad)) = _
    congr 1
    have he : ((plain.length : Int) - 2 * pad) = ((2 * n - 2 * pad : Nat) : Int) := by
      rw [hlen]; push_cast; omega
    have h0 : ((0 : Nat) : Int) = (0 : Int) := by simp
    rw [he, ← h0, pySlice_nonneg (by omega) (by omega)]
    simp [sliceN]
  | succ k ih =>
    intro hk
    unfold padInvLoop
    simp only [Option.pure_def, Option.bind_eq_bind]
    have ha : ((plain.length : Int) - 2 - 2 * ((pad - (k + 1) : Nat) : Int)) =
        (((2 * n - 2 - 2 * (pad - (k + 1)) : Nat) : Int)) := by
      rw [hlen]; push_cast; omega
    have hb2 : ((plain.length : Int) - 2 * ((pad - (k + 1) : Nat) : Int)) =
        (((2 * n - 2 * (pad - (k + 1)) : Nat) : Int)) := by
      rw [hlen]; push_cast; omega
    rw [ha, hb2, pySlice_nonneg (by omega) (by omega)]
    have he2 : 2 * n - 2 * (pad - (k + 1)) = (2 * n - 2 - 2 * (pad - (k + 1))) + 2 := by
      omega
    rw [he2, @sliceN_pair plain (2 * n - 2 - 2 * (pad - (k + 1))) (by omega), intHex_pair]
    simp only [Option.pure_def, Option.bind_eq_bind, Option.some_bind]
    have hbyte : 16 * plain.getD (2 * n - 2 - 2 * (pad - (k + 1))) 0 +
        plain.getD (2 * n - 2 - 2 * (pad - (k + 1)) + 1) 0 =
        (bytesOfHex plain).getD (n - 1 - (pad - (k + 1))) 0 := by
      have hbg := byte_getD plain (n - 1 - (pad - (k + 1))) (by omega)
      have e1 : 2 * (n - 1 - (pad - (k + 1))) = 2 * n - 2 - 2 * (pad - (k + 1)) := by omega
      rw [e1] at hbg
      exact hbg
    rw [hbyte]
    by_cases hc : (bytesOfHex plain).getD (n - 1 - (pad - (k + 1))) 0 = pad
    · rw [if_pos hc, ih (by omega)]
      by_cases hall : ∀ j, pad - k ≤ j → j < pad → (bytesOfHex plain).getD (n - 1 - j) 0 = pad
      · rw [if_pos hall, if_pos]
        intro j h1 h2
        by_cases hji : j = pad - (k + 1)
        · subst hji; exact hc
        · exact hall j (by omega) h2
      · rw [if_neg hall, if_neg]
        intro hcon
        exact hall (fun j h1 h2 => hcon j (by omega) h2)
    · have hcon : ¬ ∀ j, pad - (k + 1) ≤ j → j < pad →
          (bytesOfHex plain).getD (n - 1 - j) 0 = pad := by
        intro hcon
        exact hc (hcon (pad - (k + 1)) (by omega) (by omega))
      rw [if_neg hc, if_neg hcon]

theorem forall_lt_iff_drop_all {l : List Nat} {n p : Nat} (hl : l.length = n) (hp : p ≤ n) :
    (∀ j, j < p → l.getD (n - 1 - j) 0 = p) ↔ ∀ b ∈ l.drop (n - p), b = p := by
  constructor
  · intro h b hb
    rcases List.mem_iff_getElem.mp hb with ⟨i, hilen, rfl⟩
    have hi : i < p := by
      rw [List.length_drop, hl] at hilen
      omega
    have h2 := h (p - 1 - i) (by omega)
    rw [List.getElem_drop]
    rw [(by omega : n - 1 - (p - 1 - i) = n - p + i)] at h2
    rw [List.getD_eq_getElem _ _ (by omega)] at h2
    exact h2
  · intro h j hj
    have hin : n - 1 - j < l.length := by omega
    have hjl : p - 1 - j < (l.drop (n - p)).length := by
      rw [List.length_drop, hl]
      omega
    have hgd2 : (l.drop (n - p)).getD (p - 1 - j) 0 = l.getD (n - 1 - j) 0 := by
      rw [List.getD_eq_getElem _ _ hjl, List.getD_eq_getElem _ _ hin, List.getElem_drop]
      congr 1
      omega
    rw [← hgd2]
    exact h _ (getD_mem_of_lt hjl)

theorem padInv_spec {plain : List Nat} {n : Nat} (hlen : plain.length = 2 * n) (hn : 0 < n)
    (hpad : (bytesOfHex plain).getD (n - 1) 0 ≤ n) :
    padInv plain =
      if ∀ j, j < (bytesOfHex plain).getD (n - 1) 0 →
          (bytesOfHex plain).getD (n - 1 - j) 0 = (bytesOfHex plain).getD (n - 1) 0
      then some (plain.take (2 * n - 2 * (bytesOfHex plain).getD (n - 1) 0))
      else some plain := by
  unfold padInv
  simp only [Option.pure_def, Option.bind_eq_bind]
  have ha : ((plain.length : Int) - 2) = (((2 * n - 2 : Nat)) : Int) := by
    rw [hlen]; push_cast; omega
  have hb : (plain.length : Int) = (((2 * n : Nat)) : Int) := by
    rw [hlen]
  rw [ha, hb, pySlice_nonneg (by omega) (by omega)]
  have hsl : sliceN plain (2 * n - 2) (2 * n) =
      [plain.getD (2 * n - 2) 0, plain.getD (2 * n - 2 + 1) 0] := by
    have h := @sliceN_pair plain (2 * n - 2) (by omega)
    rw [(by omega : 2 * n - 2 + 2 = 2 * n)] at h
    exact h
  rw [hsl, intHex_pair]
  simp only [Option.some_bind]
  have hbyte : 16 * plain.getD (2 * n - 2) 0 + plain.getD (2 * n - 2 + 1) 0 =
      (bytesOfHex plain).getD (n - 1) 0 := by
    have hbg := byte_getD plain (n - 1) (by omega)
    rw [(by omega : 2 * (n - 1) = 2 * n - 2)] at hbg
    exact hbg
  rw [hbyte]
  rw [padInvLoop_spec hlen hpad ((bytesOfHex plain).getD (n - 1) 0) le_rfl]
  have hcc : (∀ j, (bytesOfHex plain).getD (n - 1) 0 - (bytesOfHex plain).getD (n - 1) 0 ≤ j →
      j < (bytesOfHex plain).getD (n - 1) 0 →
      (bytesOfHex plain).getD (n - 1 - j) 0 = (bytesOfHex plain).getD (n - 1) 0) ↔
      (∀ j, j < (bytesOfHex plain).getD (n - 1) 0 →
      (bytesOfHex plain).getD (n - 1 - j) 0 = (bytesOfHex plain).getD (n - 1) 0) := by
    constructor
    · intro h j hj
      exact h j (by omega) hj
    · intro h j _ hj
      exact h j hj
  exact if_congr hcc rfl rfl

/-! ## Remaining helper lemmas -/

theorem invRoundsB_congr {f g : Nat → List Nat} (h : ∀ i, i ≤ 10 → f i = g i) :
    ∀ fuel, fuel ≤ 9 → ∀ st, invRoundsB f st fuel = invRoundsB g st fuel
  | 0, _, st => rfl
  | fuel + 1, hf, st => by
    unfold invRoundsB
    rw [h (fuel + 1) (by omega)]
    exact invRoundsB_congr h fuel (by omega) _

theorem invCipherStd_congr {f g : Nat → List Nat} (h : ∀ i, i ≤ 10 → f i = g i)
    (ct : List Nat) : invCipherStd f ct = invCipherStd g ct := by
  unfold invCipherStd
  rw [h 10 (by omega), h 0 (by omega), invRoundsB_congr h 9 (by omega)]

theorem zipWith_xor_cancel : ∀ a b : List Nat, a.length = b.length →
    List.zipWith (· ^^^ ·) (List.zipWith (· ^^^ ·) a b) b = a
  | [], [], _ => rfl
  | [], _ :: _, h => by simp at h
  | _ :: _, [], h => by simp at h
  | x :: as, y :: bs, h => by
    simp only [List.zipWith_cons_cons]
    rw [zipWith_xor_cancel as bs (by simpa using h)]
    congr 1
    rw [Nat.xor_assoc, Nat.xor_self, Nat.xor_zero]

/-! ## Claim theorems -/

/-- C2: for every 16-byte root key, `expandKey` returns exactly 11 round keys;
round key 0 is the root key; each round key i (1 ≤ i ≤ 10) is obtained from
round key i-1 by the word recurrence of §4.2 (`stdKeyStep`: w0 xor
SubstituteBytes(RotateWord(w3, one byte left), SBox) xor RoundConstant i, then
the chained xors); and RoundConstant i is the byte `rcSeq[i-1]` followed by
three zero bytes. -/
theorem expandKey_schedule (key : List Nat) (hv : ValidHex key) (hl : key.length = 32) :
    ∃ ks, expandKey key = some ks ∧ ks.length = 11 ∧ ks.getD 0 [] = key ∧
      (∀ i, 1 ≤ i → i ≤ 10 →
        bytesOfHex (ks.getD i []) = stdKeyStep (bytesOfHex (ks.getD (i - 1) [])) i) ∧
      (∀ i, 1 ≤ i → i ≤ 10 →
        bytesOfHex (Rcon.getD i []) = [rcSeq.getD (i - 1) 0, 0, 0, 0]) := by
  obtain ⟨ks, hexp, ⟨hlen, _⟩, hk0, hbytes⟩ := expandKey_corr hv hl
  refine ⟨ks, hexp, hlen, hk0, ?_, ?_⟩
  · intro i h1 h2
    obtain ⟨j, rfl⟩ : ∃ j, i = j + 1 := ⟨i - 1, by omega⟩
    rw [hbytes (j + 1) (by omega), (by omega : j + 1 - 1 = j), hbytes j (by omega)]
    rfl
  · intro i h1 h2
    exact (rcon_good h1 h2).2.2

/-- Witness for C2 at the FIPS-197 key. -/
theorem expandKey_schedule_witness :
    ValidHex katKey ∧ katKey.length = 32 ∧
    ∃ ks, expandKey katKey = some ks ∧ ks.length = 11 ∧ ks.getD 0 [] = katKey ∧
      (∀ i, 1 ≤ i → i ≤ 10 →
        bytesOfHex (ks.getD i []) = stdKeyStep (bytesOfHex (ks.getD (i - 1) [])) i) ∧
      (∀ i, 1 ≤ i → i ≤ 10 →
        bytesOfHex (Rcon.getD i []) = [rcSeq.getD (i - 1) 0, 0, 0, 0]) :=
  ⟨by decide, by decide, expandKey_schedule katKey (by decide) (by decide)⟩

/-- C3: `decrypt` (spec-modelled, §4.6) fails with InvalidBlockLength and
returns no plaintext whenever the input's length is not a positive multiple of
16 bytes, i.e. of 32 hex digits — in particular for 15-byte (30-digit) and
17-byte (34-digit) inputs. -/
theorem decrypt_invalid_block_length (a : AESState) (cipher : List Nat)
    (h : ¬(0 < cipher.length ∧ cipher.length % 32 = 0)) :
    decrypt a cipher = Except.error DecryptError.invalidBlockLength := by
  unfold decrypt
  rw [if_pos (show cipher.length = 0 ∨ cipher.length % 32 ≠ 0 by omega)]

/-- Witness for C3 on a 15-byte (30-hex-digit) input. -/
theorem decrypt_invalid_block_length_witness :
    ¬(0 < (List.replicate 30 0).length ∧ (List.replicate 30 0).length % 32 = 0) ∧
    decrypt ⟨[], []⟩ (List.replicate 30 0) = Except.error DecryptError.invalidBlockLength :=
  ⟨by decide, decrypt_invalid_block_length ⟨[], []⟩ (List.replicate 30 0) (by decide)⟩

/-- C4 counterexample: on the one-byte buffer 0x02 (hex digits [0,2]) the code
raises ValueError — the loop's second slice `plain[-2:0]` is empty and
`int("", 16)` throws — so `padInv` returns neither a stripped buffer nor the
buffer unmodified, refuting the claim as stated for every non-empty buffer. -/
theorem padInv_crash_counterexample : padInv [0, 2] = none := by decide

/-- C4 (amended): provided the candidate pad length p — the last byte — is at
most the byte length of the buffer, `padInv` strips exactly the last p bytes
when they all equal p, and returns the buffer unmodified otherwise (the
permissive policy). -/
theorem padInv_policy (plain : List Nat) (n : Nat) (hv : ValidHex plain)
    (hlen : plain.length = 2 * n) (hn : 0 < n)
    (hpad : (bytesOfHex plain).getD (n - 1) 0 ≤ n) :
    ((∀ b ∈ (bytesOfHex plain).drop (n - (bytesOfHex plain).getD (n - 1) 0),
        b = (bytesOfHex plain).getD (n - 1) 0) →
      padInv plain = some (plain.take (2 * (n - (bytesOfHex plain).getD (n - 1) 0)))) ∧
    ((¬∀ b ∈ (bytesOfHex plain).drop (n - (bytesOfHex plain).getD (n - 1) 0),
        b = (bytesOfHex plain).getD (n - 1) 0) →
      padInv plain = some plain) := by
  have hspec := padInv_spec hlen hn hpad
  have hbl : (bytesOfHex plain).length = n := by
    rw [bytesOfHex_length, hlen]
    omega
  have hdrop := @forall_lt_iff_drop_all (bytesOfHex plain) n
    ((bytesOfHex plain).getD (n - 1) 0) hbl hpad
  constructor
  · intro hall
    rw [hspec, if_pos (hdrop.mpr hall)]
    congr 2
    omega
  · intro hneg
    rw [hspec, if_neg (fun hc => hneg (hdrop.mp hc))]

/-- Witness for C4 on the buffer [0x01, 0x05, 0x03]: the candidate pad length
3 does not match the last three bytes, so the buffer is returned unmodified. -/
theorem padInv_policy_witness :
    (¬∀ b ∈ (bytesOfHex [0, 1, 0, 5, 0, 3]).drop
        (3 - (bytesOfHex [0, 1, 0, 5, 0, 3]).getD 2 0),
      b = (bytesOfHex [0, 1, 0, 5, 0, 3]).getD 2 0) ∧
    padInv [0, 1, 0, 5, 0, 3] = some [0, 1, 0, 5, 0, 3] :=
  ⟨by decide,
    (padInv_policy [0, 1, 0, 5, 0, 3] 3 (by decide) (by decide) (by decide) (by decide)).2
      (by decide)⟩

/-- C5 counterexample: construction with a 17-byte key (34 hex digits)
succeeds — `expandKey` reads only the first 32 digits of the root key — so
the claim that every non-16-byte key fails with InvalidKeyLength is false. -/
theorem initAES_17byte_key_counterexample :
    (initAES (katKey ++ [10, 11]) []).isSome = true := by decide

/-- C5 (amended): `__init__` performs no key-length validation and defines no
InvalidKeyLength error: construction succeeds for every valid hex key of at
least 16 bytes, 16-byte keys included. -/
theorem initAES_no_length_check (key IV : List Nat) (hv : ValidHex key)
    (hl : 32 ≤ key.length) : (initAES key IV).isSome = true := by
  obtain ⟨ks, hks⟩ := expandKey_isSome hv hl
  unfold initAES
  rw [hks]
  rfl

/-- Witness for C5 at the 16-byte FIPS key. -/
theorem initAES_no_length_check_witness :
    ValidHex katKey ∧ 32 ≤ katKey.length ∧ (initAES katKey []).isSome = true :=
  ⟨by decide, by decide, initAES_no_length_check katKey [] (by decide) (by decide)⟩

/-- C6 counterexample: `xor("ff", "f", 2)` returns `"f0"` — the source
performs no length comparison, so differing-length operands do not fail with
LengthMismatch (no such error exists in the code). -/
theorem xor_no_length_check_counterexample : xor [15, 15] [15] 2 = some [15, 0] := by decide

/-- C6 (amended): `xor` performs no length validation.  For every pair of
equal-length non-empty valid buffers it returns their digit-wise — hence
byte-wise — exclusive-or; differing-length non-empty operands also return a
result instead of failing. -/
theorem xor_bytewise (a b : List Nat) (n : Nat) (ha : ValidHex a) (hb : ValidHex b)
    (hla : a.length = n) (hlb : b.length = n) (hn : 0 < n) :
    xor a b n = some (List.zipWith (· ^^^ ·) a b) ∧
    bytesOfHex (List.zipWith (· ^^^ ·) a b) =
      List.zipWith (· ^^^ ·) (bytesOfHex a) (bytesOfHex b) ∧
    ∀ (m : Nat) (c d : List Nat), c ≠ [] → d ≠ [] → (xor c d m).isSome = true := by
  refine ⟨xor_eq_zipWith ha hb hla hlb hn, bytesOfHex_zipWith_xor a b ha hb, ?_⟩
  intro m c d hc hd
  unfold xor intHex
  rw [if_neg hc, if_neg hd]
  rfl

/-- Witness for C6 on the pair 0x12, 0x34. -/
theorem xor_bytewise_witness :
    ValidHex [1, 2] ∧ ValidHex [3, 4] ∧
    (xor [1, 2] [3, 4] 2 = some (List.zipWith (· ^^^ ·) [1, 2] [3, 4]) ∧
     bytesOfHex (List.zipWith (· ^^^ ·) [1, 2] [3, 4]) =
       List.zipWith (· ^^^ ·) (bytesOfHex [1, 2]) (bytesOfHex [3, 4]) ∧
     ∀ (m : Nat) (c d : List Nat), c ≠ [] → d ≠ [] → (xor c d m).isSome = true) :=
  ⟨by decide, by decide,
    xor_bytewise [1, 2] [3, 4] 2 (by decide) (by decide) (by decide) (by decide) (by decide)⟩

/-- C7: InverseShiftRows (spec-modelled from §4.4) cyclically shifts row r of
the column-major 4×4 state right by r positions, for r = 0,1,2,3; row 0 is
unchanged. -/
theorem shiftRowsInv_rows (s : List Nat) (hl : s.length = 32) :
    ∀ r, r < 4 → rowR (bytesOfHex (shiftRowsInv s)) r = rotRight (rowR (bytesOfHex s) r) r := by
  intro r hr
  rw [bytesOfHex_shiftRowsInv hl]
  interval_cases r <;> simp [rowR, rotRight, shiftRowsInvB, shiftIdx]

/-- Witness for C7 at the FIPS ciphertext block, row 1. -/
theorem shiftRowsInv_rows_witness :
    katCt.length = 32 ∧ (1 : Nat) < 4 ∧
    rowR (bytesOfHex (shiftRowsInv katCt)) 1 = rotRight (rowR (bytesOfHex katCt) 1) 1 :=
  ⟨by decide, by decide, shiftRowsInv_rows katCt (by decide) 1 (by decide)⟩

/-- C8: the key schedule is deterministic — a pure function of the root key
given the fixed compiled-in tables.  In this embedding `expandKey` reads no
other state, so two runs on equal root keys return equal 11-round-key
sequences. -/
theorem expandKey_deterministic (k1 k2 : List Nat) (h : k1 = k2) :
    expandKey k1 = expandKey k2 := by
  rw [h]

/-- Witness for C8 at the FIPS key. -/
theorem expandKey_deterministic_witness :
    katKey = katKey ∧ expandKey katKey = expandKey katKey :=
  ⟨rfl, expandKey_deterministic katKey katKey rfl⟩

/-- C9: `padInv` puts no upper bound of 16 on the candidate pad length: the
20-byte buffer of 0x14 (= 20) bytes has all 20 bytes stripped, returning the
empty buffer; and a buffer whose last byte is 0x00 is returned unchanged
rather than rejected. -/
theorem padInv_no_sixteen_cap :
    padInv (hexOfBytes (List.replicate 20 0x14)) = some [] ∧
    ∀ bs : List Nat, (∀ b ∈ bs, b < 256) → bs ≠ [] → bs.getD (bs.length - 1) 0 = 0 →
      padInv (hexOfBytes bs) = some (hexOfBytes bs) := by
  constructor
  · decide
  · intro bs hv hne hlast
    have hlen : (hexOfBytes bs).length = 2 * bs.length := hexOfBytes_length bs
    have hb : bytesOfHex (hexOfBytes bs) = bs := bytesOfHex_hexOfBytes bs
    have hn : 0 < bs.length := List.length_pos.mpr hne
    have hpadv : (bytesOfHex (hexOfBytes bs)).getD (bs.length - 1) 0 = 0 := by
      rw [hb]; exact hlast
    have hspec := padInv_spec hlen hn (by rw [hpadv]; omega)
    rw [hpadv] at hspec
    rw [hspec, if_pos (fun j hj => absurd hj (by omega))]
    rw [(by omega : 2 * bs.length - 2 * 0 = 2 * bs.length)]
    rw [List.take_of_length_le (by rw [hlen])]

/-- Witness for C9 on the two-byte buffer [0xAB, 0x00]. -/
theorem padInv_no_sixteen_cap_witness :
    ((∀ b ∈ [171, 0], b < 256) ∧ [171, 0] ≠ ([] : List Nat) ∧
      ([171, 0] : List Nat).getD 1 0 = 0) ∧
    padInv (hexOfBytes [171, 0]) = some (hexOfBytes [171, 0]) :=
  ⟨⟨by decide, by decide, by decide⟩,
    padInv_no_sixteen_cap.2 [171, 0] (by decide) (by decide) (by decide)⟩

/-- C10 counterexample: at n = 0 with the empty strings the inner `xor`
raises ValueError (`int("", 16)`), so the double application is not the
identity there — the claim fails for length 0. -/
theorem xor_involution_counterexample :
    (xor [] [] 0).bind (fun c => xor c [] 0) = none := by decide

/-- C10 (amended): for every positive length n and every pair of valid hex
buffers of exactly n digits, `xor(xor(a,b,n),b,n)` returns `a`, and the
intermediate result has exactly n digits. -/
theorem xor_involution (a b : List Nat) (n : Nat) (ha : ValidHex a) (hb : ValidHex b)
    (hla : a.length = n) (hlb : b.length = n) (hn : 0 < n) :
    ∃ c, xor a b n = some c ∧ c.length = n ∧ xor c b n = some a := by
  have h1 := xor_eq_zipWith ha hb hla hlb hn
  have hcl : (List.zipWith (· ^^^ ·) a b).length = n := by
    rw [List.length_zipWith, hla, hlb, Nat.min_self]
  have hcv : ValidHex (List.zipWith (· ^^^ ·) a b) := validHex_zipWith_xor a b ha hb
  refine ⟨_, h1, hcl, ?_⟩
  rw [xor_eq_zipWith hcv hb hcl hlb hn, zipWith_xor_cancel a b (hla.trans hlb.symm)]

/-- Witness for C10 on the pair 0xCA, 0x56. -/
theorem xor_involution_witness :
    ValidHex [12, 10] ∧ ValidHex [5, 6] ∧
    ∃ c, xor [12, 10] [5, 6] 2 = some c ∧ c.length = 2 ∧ xor c [5, 6] 2 = some [12, 10] :=
  ⟨by decide, by decide,
    xor_involution [12, 10] [5, 6] 2 (by decide) (by decide) (by decide) (by decide) (by decide)⟩

/-- C1: code_bug — `AES.decryptBlock` is implemented in the source as the
identity (`return block`), not as the inverse cipher: for every state and
block it returns the block unchanged, and in particular, with the cipher
fully constructed from the known-answer key `000102030405060708090a0b0c0d0e0f`,
it maps the known-answer ciphertext `69c4e0d86a7b0430d8cdb78070b4c55a` to
that same ciphertext, which differs from the plaintext
`00112233445566778899aabbccddeeff` the claim requires; the AES-128 standard
inverse cipher (`invCipherStd` over the standard schedule `stdRK`), with
which the claim asserts bit-for-bit agreement, does map that ciphertext to
that plaintext. -/
theorem decryptBlock_identity_bug :
    (∀ a block, decryptBlock a block = block) ∧
    ((initAES katKey (List.replicate 32 0)).map
      (fun a => decryptBlock a katCt) = some katCt) ∧
    katCt ≠ katPt ∧
    invCipherStd (stdRK (bytesOfHex katKey)) (bytesOfHex katCt) = bytesOfHex katPt :=
  ⟨fun _ _ => rfl, by decide, by decide, by decide⟩

end AES
